import Mathlib

/-!
Verification of the AkôFlow Dataverse uploader driver (`src/script.py`).

The development shallowly embeds the pieces of the script that the claims
are about:

* a JSON-like value model `J` for the metadata template (Python dicts are
  ordered association lists, Python lists are Lean lists);
* the citation-field editing functions (`find_field`, `set_simple_field`,
  `ensure_compound_entry`, `update_compound_entry`, `apply_title_suffix`,
  `apply_metadata_overrides`, `get_citation_fields`);
* the upload retry loop (`_upload_single_file`) and the sequential and
  concurrent orchestration (`upload_files`);
* the collection provisioning logic (`ensure_dataverse_exists`);
* the `main` driver as a trace of remote calls.

Python in-place mutation is rendered as explicit state passing; paths of
the code that raise exceptions (TypeError and friends) are rendered in
`Option`/`Except`.  Machine-level details (HTTP transport, threads) are
abstracted: a service is a function from request indices to responses and
a concurrent completion order is an arbitrary permutation of the task
indices.
-/

set_option autoImplicit false

namespace DataverseUploader

/-- JSON-like values: the model of Python objects stored in the metadata
template.  Python dicts keep insertion order, so objects are association
lists. -/
inductive J where
  | s (v : String)
  | i (v : Int)
  | b (v : Bool)
  | null
  | arr (xs : List J)
  | obj (kvs : List (String × J))

/-- Lookup in an (ordered) association list: Python `dict.get`. -/
def lookupKV (kvs : List (String × J)) (k : String) : Option J :=
  match kvs with
  | [] => none
  | (k', v) :: t => if k' = k then some v else lookupKV t k

/-- Assignment `d[k] = v` on an ordered association list: replaces the
value of an existing key in place, otherwise appends the new key at the
end (Python dict insertion-order semantics). -/
def assocSet (kvs : List (String × J)) (k : String) (v : J) : List (String × J) :=
  match kvs with
  | [] => [(k, v)]
  | (k', v') :: t => if k' = k then (k, v) :: t else (k', v') :: assocSet t k v

/-- Models `field.get(key)` — `none` both when the key is missing and when the
receiver is not a dict (the script only calls it on dicts). -/
def dictGet (j : J) (k : String) : Option J :=
  match j with
  | .obj kvs => lookupKV kvs k
  | _ => none

/-- Models `field[key] = v` on a dict; identity on non-dicts (the script never
reaches that case on the paths we verify). -/
def dictSet (j : J) (k : String) (v : J) : J :=
  match j with
  | .obj kvs => .obj (assocSet kvs k v)
  | _ => j

/-- Python truthiness of a JSON-like value (`if not field.get("value")`). -/
def truthy (j : J) : Bool :=
  match j with
  | .s v => v ≠ ""
  | .i v => v ≠ 0
  | .b v => v
  | .null => false
  | .arr xs => ¬xs.isEmpty
  | .obj kvs => ¬kvs.isEmpty

/-- Truthiness of a `dict.get` result (a missing key is falsy). -/
def truthyOpt (j : Option J) : Bool :=
  match j with
  | none => false
  | some v => truthy v

/-! ## Upload retry loop (`_upload_single_file`, script.py lines 352-381) -/

/-- An HTTP response as the script observes it: a status code and a body.
For uploads, `text` stands for the "detail" the script extracts
(`response.json()` when the body parses, `response.text` otherwise). -/
structure HttpResp where
  status_code : Nat
  text : String

/-- Models `response.status_code in {200, 201}` — a successful upload attempt. -/
def uploadOk (r : HttpResp) : Bool :=
  r.status_code = 200 ∨ r.status_code = 201

/-- Outcome of `_upload_single_file`: a normal return or the raised
`RuntimeError`.  `attempts` is the final value of the `attempts` counter;
`delays` lists the argument of each `sleep` call, in order. -/
inductive UploadResult where
  | success (attempts : Nat) (delays : List ℚ)
  | failure (attempts : Nat) (delays : List ℚ) (status : Nat) (detail : String)

/-- Prepend one inter-attempt `sleep(retry_delay)` to a result's delay
trace. -/
def addDelay (d : ℚ) : UploadResult → UploadResult
  | .success a ds => .success a (d :: ds)
  | .failure a ds st det => .failure a (d :: ds) st det

/-- The final `attempts` counter of a result. -/
def UploadResult.attempts : UploadResult → Nat
  | .success a _ => a
  | .failure a _ _ _ => a

/-- The delay trace of a result. -/
def UploadResult.delays : UploadResult → List ℚ
  | .success _ ds => ds
  | .failure _ ds _ _ => ds

def UploadResult.isSuccess : UploadResult → Bool
  | .success _ _ => true
  | _ => false

def UploadResult.isFailure : UploadResult → Bool
  | .failure _ _ _ _ => true
  | _ => false

/-- One turn of the `while True` loop of `_upload_single_file`, entered
with `attempts` attempts already made.  `resp i` is the response to the
`i`-th upload request (0-based); `retries` may be any integer, as in the
script (the CLI clamps it, the function itself does not). -/
def uploadAttempts (resp : Nat → HttpResp) (retries : Int) (retry_delay : ℚ)
    (attempts : Nat) : UploadResult :=
  let r := resp attempts
  if uploadOk r then
    .success (attempts + 1) []
  else if (attempts + 1 : Int) ≥ retries then
    .failure (attempts + 1) [] r.status_code r.text
  else
    addDelay retry_delay (uploadAttempts resp retries retry_delay (attempts + 1))
termination_by (retries - attempts).toNat
decreasing_by
  simp only [not_le] at *
  omega

/-- Models `_upload_single_file(api, pid, path, retries, retry_delay)`, with the
per-attempt responses abstracted as `resp`. -/
def upload_single_file (resp : Nat → HttpResp) (retries : Int) (retry_delay : ℚ) :
    UploadResult :=
  uploadAttempts resp retries retry_delay 0

/-- The number of attempts the loop actually performs for a run in which
no attempt succeeds: `retries` floored at one attempt. -/
def effectiveAttempts (retries : Int) : Nat :=
  max retries.toNat 1

theorem uploadAttempts_unfold (resp : Nat → HttpResp) (retries : Int) (d : ℚ) (a : Nat) :
    uploadAttempts resp retries d a =
      if uploadOk (resp a) then .success (a + 1) []
      else if (a + 1 : Int) ≥ retries then
        .failure (a + 1) [] (resp a).status_code (resp a).text
      else addDelay d (uploadAttempts resp retries d (a + 1)) := by
  rw [uploadAttempts]

theorem addDelay_attempts (d : ℚ) (r : UploadResult) :
    (addDelay d r).attempts = r.attempts := by
  cases r <;> rfl

theorem uploadAttempts_success (resp : Nat → HttpResp) (retries : Int) (d : ℚ) :
    ∀ k a, (∀ i, i < k → ¬ uploadOk (resp (a + i)) ∧ (a + i + 1 : Int) < retries) →
      uploadOk (resp (a + k)) →
      uploadAttempts resp retries d a = .success (a + k + 1) (List.replicate k d) := by
  intro k
  induction k with
  | zero =>
    intro a _ hok
    rw [uploadAttempts_unfold]
    simp only [Nat.add_zero] at hok
    simp [hok]
  | succ n ih =>
    intro a h hok
    obtain ⟨hfail, hlt⟩ := h 0 (Nat.succ_pos n)
    simp only [Nat.add_zero] at hfail hlt
    rw [uploadAttempts_unfold]
    rw [if_neg (by simpa using hfail), if_neg (by omega)]
    have hrec := ih (a + 1)
      (fun i hi =>
        ⟨by
          have e : a + 1 + i = a + (i + 1) := by omega
          rw [e]
          exact (h (i + 1) (by omega)).1,
         by
          have := (h (i + 1) (by omega)).2
          push_cast at this ⊢
          omega⟩)
      (by
        have e : a + 1 + n = a + (n + 1) := by omega
        rw [e]
        exact hok)
    rw [hrec]
    have e2 : a + 1 + n + 1 = a + (n + 1) + 1 := by omega
    rw [e2, List.replicate_succ]
    rfl

theorem uploadAttempts_failure (resp : Nat → HttpResp) (retries : Int) (d : ℚ) :
    ∀ n a, effectiveAttempts retries - a = n + 1 →
      (∀ i, a ≤ i → i < effectiveAttempts retries → ¬ uploadOk (resp i)) →
      uploadAttempts resp retries d a =
        .failure (effectiveAttempts retries)
          (List.replicate (effectiveAttempts retries - 1 - a) d)
          (resp (effectiveAttempts retries - 1)).status_code
          (resp (effectiveAttempts retries - 1)).text := by
  intro n
  induction n with
  | zero =>
    intro a hN hfail
    have ha : a = effectiveAttempts retries - 1 := by omega
    have hfa := hfail a (le_refl a) (by omega)
    rw [uploadAttempts_unfold, if_neg (by simpa using hfa),
      if_pos (by simp only [effectiveAttempts] at hN; omega)]
    have h1 : a + 1 = effectiveAttempts retries := by omega
    rw [h1, ha]
    have h2 : effectiveAttempts retries - 1 - (effectiveAttempts retries - 1) = 0 := by omega
    rw [h2]
    rfl
  | succ n ih =>
    intro a hN hfail
    have hfa := hfail a (le_refl a) (by omega)
    rw [uploadAttempts_unfold, if_neg (by simpa using hfa),
      if_neg (by simp only [effectiveAttempts] at hN; omega)]
    rw [ih (a + 1) (by omega) (fun i hi hi' => hfail i (by omega) hi')]
    have h3 : effectiveAttempts retries - 1 - a = (effectiveAttempts retries - 1 - (a + 1)) + 1 := by
      omega
    rw [h3, List.replicate_succ]
    rfl

theorem uploadAttempts_attempts_ge (resp : Nat → HttpResp) (retries : Int) (d : ℚ) :
    ∀ a, a + 1 ≤ (uploadAttempts resp retries d a).attempts := by
  have key : ∀ n (a : Nat), (retries - (a : Int)).toNat ≤ n →
      a + 1 ≤ (uploadAttempts resp retries d a).attempts := by
    intro n
    induction n with
    | zero =>
      intro a h
      rw [uploadAttempts_unfold]
      by_cases h1 : uploadOk (resp a)
      · rw [if_pos h1]
        simp [UploadResult.attempts]
      · rw [if_neg h1, if_pos (by omega)]
        simp [UploadResult.attempts]
    | succ n ih =>
      intro a h
      rw [uploadAttempts_unfold]
      by_cases h1 : uploadOk (resp a)
      · rw [if_pos h1]
        simp [UploadResult.attempts]
      · rw [if_neg h1]
        by_cases h2 : ((a : Int) + 1 ≥ retries)
        · rw [if_pos h2]
          simp [UploadResult.attempts]
        · rw [if_neg h2, addDelay_attempts]
          have := ih (a + 1) (by push_cast; omega)
          omega
  intro a
  exact key _ a le_rfl

/-- C1: `_upload_single_file` returns immediately on a successful attempt
(status 200 or 201); on a failed attempt with fewer attempts so far than
`retries` it sleeps `retry_delay` once and retries; after exhausting
`retries` it raises a `RuntimeError` carrying the attempt count and the
last response detail; it always performs at least one attempt even for
`retries ≤ 0`; and with `retries = 3`, two failures followed by a success
yield a success after exactly 3 attempts with two inter-attempt delays. -/
theorem uploadFile_retry_policy (resp : Nat → HttpResp) (retries : Int) (d : ℚ) :
    (uploadOk (resp 0) → upload_single_file resp retries d = .success 1 []) ∧
    (∀ k, (∀ i, i < k → ¬ uploadOk (resp i)) → uploadOk (resp k) →
      k < effectiveAttempts retries →
      upload_single_file resp retries d = .success (k + 1) (List.replicate k d)) ∧
    ((∀ i, i < effectiveAttempts retries → ¬ uploadOk (resp i)) →
      upload_single_file resp retries d =
        .failure (effectiveAttempts retries)
          (List.replicate (effectiveAttempts retries - 1) d)
          (resp (effectiveAttempts retries - 1)).status_code
          (resp (effectiveAttempts retries - 1)).text) ∧
    (1 ≤ (upload_single_file resp retries d).attempts) ∧
    (retries = 3 → ¬ uploadOk (resp 0) → ¬ uploadOk (resp 1) → uploadOk (resp 2) →
      upload_single_file resp retries d = .success 3 [d, d]) := by
  have hgen : ∀ k, (∀ i, i < k → ¬ uploadOk (resp i)) → uploadOk (resp k) →
      k < effectiveAttempts retries →
      upload_single_file resp retries d = .success (k + 1) (List.replicate k d) := by
    intro k hfail hok hk
    have := uploadAttempts_success resp retries d k 0
      (fun i hi =>
        ⟨by simpa using hfail i hi,
         by simp only [effectiveAttempts] at hk; push_cast; omega⟩)
      (by simpa using hok)
    simpa [upload_single_file] using this
  refine ⟨?_, hgen, ?_, ?_, ?_⟩
  · intro h0
    simpa using hgen 0 (fun i hi => absurd hi (Nat.not_lt_zero i)) h0
      (by simp only [effectiveAttempts]; omega)
  · intro hall
    have hN : 1 ≤ effectiveAttempts retries := by simp only [effectiveAttempts]; omega
    have := uploadAttempts_failure resp retries d (effectiveAttempts retries - 1) 0
      (by omega) (fun i _ hi => hall i hi)
    simpa [upload_single_file] using this
  · exact uploadAttempts_attempts_ge resp retries d 0
  · intro h3 h0 h1 h2
    have := hgen 2 (by intro i hi; interval_cases i <;> assumption) h2
      (by subst h3; decide)
    simpa using this

/-- A concrete service whose first two upload attempts fail with status
500 and whose third succeeds with status 200. -/
def respTwoFailsThenOk : Nat → HttpResp :=
  fun i => if i < 2 then ⟨500, "server error"⟩ else ⟨200, "ok"⟩

theorem uploadFile_retry_policy_witness :
    upload_single_file respTwoFailsThenOk 3 2 = .success 3 [2, 2] :=
  (uploadFile_retry_policy respTwoFailsThenOk 3 2).2.2.2.2 rfl
    (by decide) (by decide) (by decide)

/-! ## `upload_files` (script.py lines 384-419)

The per-file service is abstracted as `resp : α → Nat → HttpResp` (file,
attempt index ↦ response).  The sequential path instruments the loop with
a trace of attempted files; the concurrent path takes the `as_completed`
completion order as an arbitrary permutation of the task indices. -/

/-- A run of the sequential branch of `upload_files`: which files were
attempted (in order, with their outcomes) and the propagated
`RuntimeError`, if any. -/
structure SeqRun (α : Type) where
  trace : List (α × UploadResult)
  error : Option (α × UploadResult)

/-- Models `upload_files(..., concurrent=False)`: upload one file at a time in
list order; the first raised `RuntimeError` propagates at once, so later
files are never attempted. -/
def upload_files_seq {α : Type} (resp : α → Nat → HttpResp) (retries : Int) (d : ℚ) :
    List α → SeqRun α
  | [] => ⟨[], none⟩
  | f :: fs =>
    let r := upload_single_file (resp f) retries d
    if r.isFailure then ⟨[(f, r)], some (f, r)⟩
    else
      let rest := upload_files_seq resp retries d fs
      ⟨(f, r) :: rest.trace, rest.error⟩

/-- A run of the concurrent branch of `upload_files`: all per-file task
results, the `errors` list collected in completion order, and the
aggregate `RuntimeError` (which quotes `errors[0]`). -/
structure ConcRun (α : Type) where
  results : List (α × UploadResult)
  errors : List (α × UploadResult)
  raised : Option (α × UploadResult)

/-- Models `upload_files(..., concurrent=True)`: every submitted task runs to a
terminal state; `as_completed` yields the futures in `completion` order;
each failed future appends `(file, exc)` to `errors`; if `errors` is
nonempty an aggregate error referencing `errors[0]` is raised. -/
def upload_files_conc {α : Type} (resp : α → Nat → HttpResp) (retries : Int) (d : ℚ)
    (files : List α) (completion : List Nat) : ConcRun α :=
  let results := files.map fun f => (f, upload_single_file (resp f) retries d)
  let errors := (completion.filterMap fun i => results.get? i).filter fun p => p.2.isFailure
  ⟨results, errors, errors.head?⟩

theorem isFailure_eq_not_isSuccess (r : UploadResult) :
    r.isFailure = !r.isSuccess := by
  cases r <;> rfl

theorem filterMap_get?_range {α : Type} (l : List α) :
    ∀ n, n ≤ l.length → (List.range n).filterMap l.get? = l.take n := by
  intro n
  induction n with
  | zero => intro _; rfl
  | succ n ih =>
    intro h
    rw [List.range_succ, List.filterMap_append, ih (by omega), List.take_succ]
    have hsingle : List.filterMap l.get? [n] = (l.get? n).toList := by
      cases h2 : l.get? n <;>
        rw [List.get?_eq_getElem?] at h2 <;>
        simp [List.filterMap_cons, List.get?_eq_getElem?, h2]
    rw [hsingle, List.get?_eq_getElem?]

theorem upload_files_seq_all_success {α : Type} (resp : α → Nat → HttpResp)
    (retries : Int) (d : ℚ) (files : List α)
    (h : ∀ f ∈ files, (upload_single_file (resp f) retries d).isSuccess) :
    upload_files_seq resp retries d files =
      ⟨files.map fun f => (f, upload_single_file (resp f) retries d), none⟩ := by
  induction files with
  | nil => rfl
  | cons f fs ih =>
    have hf : (upload_single_file (resp f) retries d).isFailure = false := by
      rw [isFailure_eq_not_isSuccess, h f (List.mem_cons_self f fs)]
      rfl
    simp only [upload_files_seq, hf]
    rw [ih (fun g hg => h g (List.mem_cons_of_mem f hg))]
    simp

theorem upload_files_seq_first_failure {α : Type} (resp : α → Nat → HttpResp)
    (retries : Int) (d : ℚ) (pre : List α) (f : α) (post : List α)
    (hpre : ∀ g ∈ pre, (upload_single_file (resp g) retries d).isSuccess)
    (hf : (upload_single_file (resp f) retries d).isFailure) :
    upload_files_seq resp retries d (pre ++ f :: post) =
      ⟨(pre.map fun g => (g, upload_single_file (resp g) retries d)) ++
          [(f, upload_single_file (resp f) retries d)],
        some (f, upload_single_file (resp f) retries d)⟩ := by
  induction pre with
  | nil => simp [upload_files_seq, hf]
  | cons g pre' ih =>
    have hg : (upload_single_file (resp g) retries d).isFailure = false := by
      rw [isFailure_eq_not_isSuccess, hpre g (List.mem_cons_self g pre')]
      rfl
    simp only [List.cons_append, upload_files_seq, hg, List.append_eq]
    rw [ih (fun g' hg' => hpre g' (List.mem_cons_of_mem g hg'))]
    simp

/-- C2: the sequential branch of `upload_files` attempts files one at a
time in discovery order and aborts on the first terminal failure: every
file before the first terminally-failing one is uploaded, the failing
file is attempted exactly `max retries 1` times with a `retry_delay`
sleep between consecutive attempts, its error is the single surfaced
error, and no later file is ever attempted.  When no file fails
terminally, all files are uploaded in order and no error is raised. -/
theorem uploadAll_sequential_fail_fast {α : Type} (resp : α → Nat → HttpResp)
    (retries : Int) (d : ℚ) :
    (∀ files, (∀ f ∈ files, (upload_single_file (resp f) retries d).isSuccess) →
      upload_files_seq resp retries d files =
        ⟨files.map fun f => (f, upload_single_file (resp f) retries d), none⟩) ∧
    (∀ (pre : List α) (f : α) (post : List α),
      (∀ g ∈ pre, (upload_single_file (resp g) retries d).isSuccess) →
      (upload_single_file (resp f) retries d).isFailure →
      upload_files_seq resp retries d (pre ++ f :: post) =
        ⟨(pre.map fun g => (g, upload_single_file (resp g) retries d)) ++
            [(f, upload_single_file (resp f) retries d)],
          some (f, upload_single_file (resp f) retries d)⟩) ∧
    (∀ A B C : α, (upload_single_file (resp A) retries d).isSuccess →
      (∀ i, i < effectiveAttempts retries → ¬ uploadOk (resp B i)) →
      upload_files_seq resp retries d [A, B, C] =
        ⟨[(A, upload_single_file (resp A) retries d),
          (B, .failure (effectiveAttempts retries)
            (List.replicate (effectiveAttempts retries - 1) d)
            (resp B (effectiveAttempts retries - 1)).status_code
            (resp B (effectiveAttempts retries - 1)).text)],
          some (B, .failure (effectiveAttempts retries)
            (List.replicate (effectiveAttempts retries - 1) d)
            (resp B (effectiveAttempts retries - 1)).status_code
            (resp B (effectiveAttempts retries - 1)).text)⟩) := by
  refine ⟨upload_files_seq_all_success resp retries d,
    upload_files_seq_first_failure resp retries d, ?_⟩
  intro A B C hA hB
  have hN : 1 ≤ effectiveAttempts retries := by simp only [effectiveAttempts]; omega
  have hBeq : upload_single_file (resp B) retries d =
      .failure (effectiveAttempts retries)
        (List.replicate (effectiveAttempts retries - 1) d)
        (resp B (effectiveAttempts retries - 1)).status_code
        (resp B (effectiveAttempts retries - 1)).text := by
    have := uploadAttempts_failure (resp B) retries d (effectiveAttempts retries - 1) 0
      (by omega) (fun i _ hi => hB i hi)
    simpa [upload_single_file] using this
  have := upload_files_seq_first_failure resp retries d [A] B [C]
    (by intro g hg; rw [List.mem_singleton] at hg; subst hg; exact hA)
    (by rw [hBeq]; rfl)
  rw [hBeq] at this
  simpa using this

/-- A concrete per-file service: file `"B"` always fails with status 500,
every other file succeeds with status 201 on the first attempt. -/
def respSeqW : String → Nat → HttpResp :=
  fun f _ => if f = "B" then ⟨500, "boom"⟩ else ⟨201, "ok"⟩

theorem uploadAll_sequential_fail_fast_witness :
    upload_files_seq respSeqW 2 1 ["A", "B", "C"] =
      ⟨[("A", .success 1 []), ("B", .failure 2 [1] 500 "boom")],
        some ("B", .failure 2 [1] 500 "boom")⟩ := by
  have hA : upload_single_file (respSeqW "A") 2 1 = .success 1 [] := by
    have := uploadAttempts_success (respSeqW "A") 2 1 0 0
      (fun i hi => absurd hi (Nat.not_lt_zero i)) (by decide)
    simpa [upload_single_file] using this
  have h := (uploadAll_sequential_fail_fast respSeqW 2 1).2.2 "A" "B" "C"
    (by rw [hA]; rfl) (by intro i _; simp [respSeqW, uploadOk])
  rw [h, hA]
  norm_num [effectiveAttempts, respSeqW]
  exact ⟨rfl, rfl⟩

theorem completed_perm_results {α : Type} (resp : α → Nat → HttpResp)
    (retries : Int) (d : ℚ) (files : List α) (completion : List Nat)
    (hperm : completion.Perm (List.range files.length)) :
    (completion.filterMap
        (files.map fun f => (f, upload_single_file (resp f) retries d)).get?).Perm
      (files.map fun f => (f, upload_single_file (resp f) retries d)) := by
  set R := files.map fun f => (f, upload_single_file (resp f) retries d) with hR
  have h1 := hperm.filterMap R.get?
  have h2 : (List.range files.length).filterMap R.get? = R := by
    have hlen : files.length = R.length := by rw [hR, List.length_map]
    rw [hlen, filterMap_get?_range R R.length le_rfl, List.take_length]
  rw [h2] at h1
  exact h1

/-- C3: the concurrent branch of `upload_files` lets every task reach a
terminal state (`results` covers every file), collects every terminal
failure (as a permutation of the failures among all tasks, in completion
order), raises an aggregate error quoting the first failure in completion
order iff at least one terminal failure occurred, and succeeds iff zero
terminal failures occurred.  For `[A, B, C]` with only `B` failing, all
three files complete and the aggregate reports exactly `B`. -/
theorem uploadAll_concurrent_aggregate {α : Type} (resp : α → Nat → HttpResp)
    (retries : Int) (d : ℚ) (files : List α) (completion : List Nat)
    (hperm : completion.Perm (List.range files.length)) :
    ((upload_files_conc resp retries d files completion).results =
      files.map fun f => (f, upload_single_file (resp f) retries d)) ∧
    ((upload_files_conc resp retries d files completion).errors.Perm
      ((files.map fun f => (f, upload_single_file (resp f) retries d)).filter
        fun p => p.2.isFailure)) ∧
    ((upload_files_conc resp retries d files completion).raised = none ↔
      ∀ f ∈ files, (upload_single_file (resp f) retries d).isSuccess) ∧
    (∀ e, (upload_files_conc resp retries d files completion).raised = some e →
      e.2.isFailure ∧ e ∈ (upload_files_conc resp retries d files completion).results ∧
      (upload_files_conc resp retries d files completion).errors.head? = some e) ∧
    (∀ A B C : α, files = [A, B, C] →
      (upload_single_file (resp A) retries d).isSuccess →
      (upload_single_file (resp C) retries d).isSuccess →
      (upload_single_file (resp B) retries d).isFailure →
      (upload_files_conc resp retries d files completion).errors =
          [(B, upload_single_file (resp B) retries d)] ∧
        (upload_files_conc resp retries d files completion).raised =
          some (B, upload_single_file (resp B) retries d)) := by
  have hcomp := completed_perm_results resp retries d files completion hperm
  have herr0 := hcomp.filter (fun p : α × UploadResult => p.2.isFailure)
  have herr : (upload_files_conc resp retries d files completion).errors.Perm
      ((files.map fun f => (f, upload_single_file (resp f) retries d)).filter
        fun p => p.2.isFailure) := herr0
  refine ⟨rfl, herr, ?_, ?_, ?_⟩
  · constructor
    · intro hnone f hf
      have hnil : (upload_files_conc resp retries d files completion).errors = [] :=
        List.head?_eq_none_iff.mp hnone
      rw [hnil] at herr
      have hfilter : ((files.map fun f => (f, upload_single_file (resp f) retries d)).filter
          fun p => p.2.isFailure) = [] := herr.symm.eq_nil
      rw [List.filter_eq_nil_iff] at hfilter
      have hmem : (f, upload_single_file (resp f) retries d) ∈
          files.map fun f => (f, upload_single_file (resp f) retries d) :=
        List.mem_map_of_mem _ hf
      have hno := hfilter _ hmem
      simp only [isFailure_eq_not_isSuccess, Bool.not_eq_true', Bool.not_eq_false] at hno
      exact hno
    · intro hall
      have hfilter : ((files.map fun f => (f, upload_single_file (resp f) retries d)).filter
          fun p => p.2.isFailure) = [] := by
        rw [List.filter_eq_nil_iff]
        intro p hp
        obtain ⟨f, hf, rfl⟩ := List.mem_map.mp hp
        simp only [isFailure_eq_not_isSuccess, hall f hf]
        simp
      rw [hfilter] at herr
      have hnil : (upload_files_conc resp retries d files completion).errors = [] :=
        herr.eq_nil
      show ((upload_files_conc resp retries d files completion).errors).head? = none
      rw [hnil]
      rfl
  · intro e he
    have hhead : (upload_files_conc resp retries d files completion).errors.head? = some e := he
    have hmeme : e ∈ (upload_files_conc resp retries d files completion).errors := by
      cases herrs : (upload_files_conc resp retries d files completion).errors with
      | nil => rw [herrs] at hhead; exact absurd hhead (by simp)
      | cons x t =>
        rw [herrs] at hhead
        simp only [List.head?_cons, Option.some.injEq] at hhead
        subst hhead
        exact List.mem_cons_self x t
    have hmemf : e ∈ ((files.map fun f => (f, upload_single_file (resp f) retries d)).filter
        fun p => p.2.isFailure) := herr.mem_iff.mp hmeme
    have h1 := List.of_mem_filter hmemf
    have h2 := List.mem_of_mem_filter hmemf
    exact ⟨h1, h2, hhead⟩
  · intro A B C hfiles hA hC hB
    subst hfiles
    have hA' : (upload_single_file (resp A) retries d).isFailure = false := by
      rw [isFailure_eq_not_isSuccess, hA]; rfl
    have hC' : (upload_single_file (resp C) retries d).isFailure = false := by
      rw [isFailure_eq_not_isSuccess, hC]; rfl
    have hfilter : (([A, B, C].map fun f => (f, upload_single_file (resp f) retries d)).filter
        fun p => p.2.isFailure) = [(B, upload_single_file (resp B) retries d)] := by
      simp [List.filter, hA', hB, hC']
    rw [hfilter] at herr
    have heq : (upload_files_conc resp retries d [A, B, C] completion).errors =
        [(B, upload_single_file (resp B) retries d)] := List.perm_singleton.mp herr
    refine ⟨heq, ?_⟩
    show ((upload_files_conc resp retries d [A, B, C] completion).errors).head? = _
    rw [heq]
    rfl

/-- A completion order in which the failing task finishes first. -/
def completionW : List Nat := [1, 0, 2]

theorem uploadAll_concurrent_aggregate_witness :
    (upload_files_conc respSeqW 2 1 ["A", "B", "C"] completionW).errors =
        [("B", upload_single_file (respSeqW "B") 2 1)] ∧
      (upload_files_conc respSeqW 2 1 ["A", "B", "C"] completionW).raised =
        some ("B", upload_single_file (respSeqW "B") 2 1) := by
  have hok : ∀ f, f ≠ "B" → upload_single_file (respSeqW f) 2 1 = .success 1 [] := by
    intro f hf
    have := uploadAttempts_success (respSeqW f) 2 1 0 0
      (fun i hi => absurd hi (Nat.not_lt_zero i))
      (by simp [respSeqW, hf, uploadOk])
    simpa [upload_single_file] using this
  have hBfail : (upload_single_file (respSeqW "B") 2 1).isFailure := by
    have := uploadAttempts_failure (respSeqW "B") 2 1 (effectiveAttempts 2 - 1) 0
      (by decide) (fun i _ _ => by simp [respSeqW, uploadOk])
    simp only [upload_single_file]
    rw [this]
    rfl
  exact (uploadAll_concurrent_aggregate respSeqW 2 1 ["A", "B", "C"] completionW
    (by decide)).2.2.2.2 "A" "B" "C" rfl
    (by rw [hok "A" (by decide)]; rfl) (by rw [hok "C" (by decide)]; rfl) hBfail

/-! ## `ensure_dataverse_exists` (script.py lines 270-312) -/

/-- Python `str.lower()` on the character data (the response bodies in
play are ASCII). -/
def lowerChars (s : String) : List Char :=
  s.data.map Char.toLower

/-- Whether `pat` occurs at the start of `hay` (on character lists). -/
def startsWithChars : List Char → List Char → Bool
  | [], _ => true
  | _ :: _, [] => false
  | c :: cs, d :: ds => c == d && startsWithChars cs ds

/-- Whether `pat` occurs as a contiguous substring of `hay`:
Python `pat in hay`. -/
def hasSubstr (pat hay : List Char) : Bool :=
  startsWithChars pat hay ||
    match hay with
    | [] => false
    | _ :: t => hasSubstr pat t

/-- The conflict heuristic of the script:
`"already exists" in response.text.lower()`. -/
def saysAlreadyExists (body : String) : Bool :=
  hasSubstr "already exists".data (lowerChars body)

/-- Models `ensure_dataverse_exists`, with the two remote responses abstracted:
`get_resp` answers `api.get_dataverse(alias)` and `create_resp` answers
`api.create_dataverse(parent_alias, ...)` (the latter is only consulted
when the existence probe does not return 200).  The error value carries
the status and body of the failed creation, as the raised `RuntimeError`
does. -/
def ensure_dataverse_exists (skip_creation : Bool) (get_resp create_resp : HttpResp) :
    Except (Nat × String) Unit :=
  if skip_creation then .ok ()
  else if get_resp.status_code = 200 then .ok ()
  else if create_resp.status_code = 201 then .ok ()
  else if create_resp.status_code = 400 ∧ saysAlreadyExists create_resp.text then .ok ()
  else .error (create_resp.status_code, create_resp.text)

/-- C4: `ensure_dataverse_exists` returns without error when creation is
skipped; when the existence probe answers 200; when creation answers 201;
and when creation answers 400 with a body containing case-insensitive
"already exists" (idempotent conflict tolerance).  Any other non-201
creation response raises an error carrying the status and body.  In
particular two consecutive calls, the first creating (201) and the second
hitting the conflict (400 + "already exists"), both return success. -/
theorem ensureCollection_idempotent (g c g2 c2 : HttpResp) :
    (ensure_dataverse_exists true g c = .ok ()) ∧
    (g.status_code = 200 → ensure_dataverse_exists false g c = .ok ()) ∧
    (c.status_code = 201 → ensure_dataverse_exists false g c = .ok ()) ∧
    (c.status_code = 400 → saysAlreadyExists c.text →
      ensure_dataverse_exists false g c = .ok ()) ∧
    (g.status_code ≠ 200 → c.status_code ≠ 201 →
      ¬(c.status_code = 400 ∧ saysAlreadyExists c.text) →
      ensure_dataverse_exists false g c = .error (c.status_code, c.text)) ∧
    (c.status_code = 201 → c2.status_code = 400 → saysAlreadyExists c2.text →
      ensure_dataverse_exists false g c = .ok () ∧
        ensure_dataverse_exists false g2 c2 = .ok ()) := by
  refine ⟨rfl, ?_, ?_, ?_, ?_, ?_⟩
  · intro h
    simp [ensure_dataverse_exists, h]
  · intro h
    simp [ensure_dataverse_exists, h]
  · intro h400 hbody
    by_cases hg : g.status_code = 200 <;>
      simp [ensure_dataverse_exists, hg, h400, hbody]
  · intro hg hc hconflict
    simp [ensure_dataverse_exists, hg, hc, hconflict]
  · intro hc hc2 hbody2
    constructor
    · simp [ensure_dataverse_exists, hc]
    · by_cases hg2 : g2.status_code = 200 <;>
        simp [ensure_dataverse_exists, hg2, hc2, hbody2]

theorem ensureCollection_idempotent_witness :
    ensure_dataverse_exists false ⟨404, "not found"⟩ ⟨201, "created"⟩ = .ok () ∧
      ensure_dataverse_exists false ⟨404, "not found"⟩
        ⟨400, "Dataverse Already EXISTS."⟩ = .ok () := by
  have h := (ensureCollection_idempotent ⟨404, "not found"⟩ ⟨201, "created"⟩
    ⟨404, "not found"⟩ ⟨400, "Dataverse Already EXISTS."⟩).2.2.2.2.2
    rfl rfl (by decide)
  exact h

/-! ## Citation-field editing (script.py lines 166-267)

`fields` is the Python list bound to
`metadata["datasetVersion"]["metadataBlocks"]["citation"]["fields"]`.
The script mutates the list and the field dicts in place; the embedding
passes the updated list explicitly.  Functions that first locate the
first field with a given `typeName` and then mutate it in place are
rendered as a single recursion that rewrites the first matching element
(the source's find-then-mutate acts on exactly that element through the
list alias).  Paths on which the script raises (`TypeError` /
`AttributeError` on values of unexpected shapes) return `none`. -/

/-- Models `field.get("typeName") == type_name` (comparison of a JSON value with
a Python `str`). -/
def isTypeName (f : J) (tn : String) : Bool :=
  match dictGet f "typeName" with
  | some (.s v) => v = tn
  | _ => false

/-- Models `find_field`: the first field whose `typeName` equals `tn`. -/
def find_field : List J → String → Option J
  | [], _ => none
  | f :: fs, tn => if isTypeName f tn then some f else find_field fs tn

/-- A fresh primitive field, as built by `set_simple_field` and
`update_compound_entry`. -/
def freshPrimitive (tn v : String) : J :=
  .obj [("typeName", .s tn), ("multiple", .b false),
    ("typeClass", .s "primitive"), ("value", .s v)]

/-- A fresh compound field with one empty sub-entry, as built by
`ensure_compound_entry`. -/
def freshCompound (tn : String) : J :=
  .obj [("typeName", .s tn), ("multiple", .b true),
    ("typeClass", .s "compound"), ("value", .arr [.obj []])]

/-- The in-place part of `set_simple_field`: update the first field with
this `typeName`, or append a fresh primitive field when none matches. -/
def setSimpleGo : List J → String → String → List J
  | [], tn, v => [freshPrimitive tn v]
  | f :: fs, tn, v =>
    if isTypeName f tn then dictSet f "value" (.s v) :: fs
    else f :: setSimpleGo fs tn v

/-- Models `set_simple_field`: a `None` value is a no-op, otherwise find-or-create
the field and overwrite its value. -/
def set_simple_field (fields : List J) (tn : String) (value : Option String) : List J :=
  match value with
  | none => fields
  | some v => setSimpleGo fields tn v

/-- Models `update_compound_entry(entry, values)`: for each non-null value,
create the sub-field if missing, else overwrite its `value`.  `none`
models the `TypeError`/`AttributeError` the script raises when `entry`
or an existing sub-field is not a dict. -/
def update_compound_entry (entry : J) : List (String × Option String) → Option J
  | [] => some entry
  | (sub_name, new_value) :: rest =>
    match new_value with
    | none => update_compound_entry entry rest
    | some v =>
      match entry with
      | .obj kvs =>
        match lookupKV kvs sub_name with
        | none =>
          update_compound_entry (.obj (assocSet kvs sub_name (freshPrimitive sub_name v))) rest
        | some (.obj skvs) =>
          update_compound_entry
            (.obj (assocSet kvs sub_name (.obj (assocSet skvs "value" (.s v))))) rest
        | some _ => none
      | _ => none

/-- One compound-override call site of `apply_metadata_overrides`:
`ensure_compound_entry(fields, tn)` followed by
`update_compound_entry(entry, values)`, with the entry written back to
`field["value"][0]` (where the source's aliasing puts it).  A falsy
`field["value"]` is first self-healed to `[{}]`; a truthy non-indexable
value makes the source raise (`none` here); a truthy string survives
because `value[0]` is then an immutable one-character copy. -/
def applyCompoundGo : List J → String → List (String × Option String) → Option (List J)
  | [], tn, values =>
    (update_compound_entry (.obj []) values).map
      fun e => [dictSet (freshCompound tn) "value" (.arr [e])]
  | f :: fs, tn, values =>
    if isTypeName f tn then
      let f1 := if truthyOpt (dictGet f "value") then f else dictSet f "value" (.arr [.obj []])
      match dictGet f1 "value" with
      | some (.arr (e :: t)) =>
        (update_compound_entry e values).map
          fun e2 => dictSet f1 "value" (.arr (e2 :: t)) :: fs
      | some (.s str) =>
        match str.data with
        | c :: _ => (update_compound_entry (.s (String.mk [c])) values).map fun _ => f1 :: fs
        | [] => none
      | _ => none
    else
      (applyCompoundGo fs tn values).map fun fs2 => f :: fs2

/-- The `ensure_compound_entry` + `update_compound_entry` pair for one
field, at the fields-list level. -/
def apply_compound_field (fields : List J) (tn : String)
    (values : List (String × Option String)) : Option (List J) :=
  applyCompoundGo fields tn values

/-- Models `apply_title_suffix`, restricted to the fields list (the suffix here
is already known to be non-empty): append to the first `title` field's
string value, overwrite a non-string value with the suffix alone, or
append a fresh primitive `title` field when none exists. -/
def apply_title_suffix_fields : List J → String → List J
  | [], suffix => [freshPrimitive "title" suffix]
  | f :: fs, suffix =>
    if isTypeName f "title" then
      (match dictGet f "value" with
       | some (.s v) => dictSet f "value" (.s (v ++ " " ++ suffix))
       | _ => dictSet f "value" (.s suffix)) :: fs
    else f :: apply_title_suffix_fields fs suffix

/-- The command-line citation overrides consumed by
`apply_metadata_overrides` (argparse attributes; any of them may be
`None` at the function's level of abstraction). -/
structure Args where
  citation_title : Option String
  author_name : Option String
  author_affiliation : Option String
  author_identifier : Option String
  author_identifier_scheme : Option String
  contact_name : Option String
  contact_email : Option String
  dataset_description : Option String
  title_suffix : Option String

/-- Python truthiness of an optional string (`if args.citation_title:`). -/
def strTruthy : Option String → Bool
  | none => false
  | some v => v ≠ ""

/-- The override values of the `author` compound group. -/
def authorValues (a : Args) : List (String × Option String) :=
  [("authorName", a.author_name), ("authorAffiliation", a.author_affiliation),
   ("authorIdentifier", a.author_identifier),
   ("authorIdentifierScheme", a.author_identifier_scheme)]

/-- The override values of the `datasetContact` compound group. -/
def contactValues (a : Args) : List (String × Option String) :=
  [("datasetContactName", a.contact_name), ("datasetContactEmail", a.contact_email)]

/-- The override values of the `dsDescription` compound group. -/
def descriptionValues (a : Args) : List (String × Option String) :=
  [("dsDescriptionValue", a.dataset_description)]

/-- Models `apply_metadata_overrides`, at the fields-list level: conditional
title overwrite, then the three compound upserts. -/
def apply_metadata_overrides_fields (fields : List J) (a : Args) : Option (List J) :=
  let fields1 := if strTruthy a.citation_title then
    set_simple_field fields "title" a.citation_title else fields
  (apply_compound_field fields1 "author" (authorValues a)).bind fun fields2 =>
    (apply_compound_field fields2 "datasetContact" (contactValues a)).bind fun fields3 =>
      apply_compound_field fields3 "dsDescription" (descriptionValues a)

/-! ## Metadata-level operations (`get_citation_fields`, `apply_title_suffix`,
`apply_metadata_overrides`, `build_dataset`; script.py lines 166-172, 226-267,
315-329) -/

/-- The `setdefault` chain of `get_citation_fields` combined with the
in-place mutation of the returned `fields` list: walk
`datasetVersion → metadataBlocks → citation`, inserting missing
intermediate dicts, run the fields-list update `upd`, and write the
updated list back.  `none` models the exceptions the source raises when
an intermediate value is not a dict, or when a present `"fields"` value
is not a list (every caller immediately iterates over it as a list of
dicts). -/
def citationGo (upd : List J → Option (List J)) : J → List String → Option J
  | .obj kvs, [] =>
    (match lookupKV kvs "fields" with
     | none => upd []
     | some (.arr l) => upd l
     | some _ => none).map
      fun fs => .obj (assocSet kvs "fields" (.arr fs))
  | .obj kvs, k :: ks =>
    (match lookupKV kvs k with
     | none => citationGo upd (.obj []) ks
     | some sub => citationGo upd sub ks).map
      fun sub2 => .obj (assocSet kvs k sub2)
  | _, _ => none

/-- Models `get_citation_fields(metadata)` plus the subsequent in-place editing
of the returned list, as a metadata-to-metadata transformation. -/
def with_citation_fields (m : J) (upd : List J → Option (List J)) : Option J :=
  citationGo upd m ["datasetVersion", "metadataBlocks", "citation"]

/-- Models `apply_title_suffix(metadata, suffix)`: no-op on an empty suffix
(before the citation path is even touched), otherwise edit the fields
list. -/
def apply_title_suffix (m : J) (suffix : String) : Option J :=
  if suffix = "" then some m
  else with_citation_fields m fun fields => some (apply_title_suffix_fields fields suffix)

/-- Models `apply_metadata_overrides(metadata, args)`. -/
def apply_metadata_overrides (m : J) (a : Args) : Option J :=
  with_citation_fields m fun fields => apply_metadata_overrides_fields fields a

/-- The suffix `build_dataset` passes to `apply_title_suffix`: the
current-UTC-timestamp string `now_utc` (already formatted
`(%Y-%m-%d %H:%M UTC)`) exactly when `args.title_suffix is None`. -/
def chooseSuffix : Option String → String → String
  | none, now_utc => now_utc
  | some s, _ => s

/-- The metadata composition performed by `build_dataset` (template
already loaded; the trailing pyDataverse validation is outside the
model): title suffixing followed by the metadata overrides. -/
def build_dataset_metadata (template : J) (a : Args) (now_utc : String) : Option J :=
  (apply_title_suffix template (chooseSuffix a.title_suffix now_utc)).bind
    fun m1 => apply_metadata_overrides m1 a

/-- The value of the first `title` citation field of a composed
metadata document (read-only helper for stating theorems). -/
def titleValue (m : J) : Option J :=
  match dictGet m "datasetVersion" with
  | some dv =>
    match dictGet dv "metadataBlocks" with
    | some mb =>
      match dictGet mb "citation" with
      | some cit =>
        match dictGet cit "fields" with
        | some (.arr fields) => (find_field fields "title").bind fun f => dictGet f "value"
        | _ => none
      | _ => none
    | _ => none
  | _ => none

/-! ## Basic lemmas about the dict model -/

theorem lookupKV_assocSet_self (kvs : List (String × J)) (k : String) (v : J) :
    lookupKV (assocSet kvs k v) k = some v := by
  induction kvs with
  | nil => simp [assocSet, lookupKV]
  | cons p t ih =>
    obtain ⟨k', v'⟩ := p
    by_cases h : k' = k
    · subst h
      simp [assocSet, lookupKV]
    · simp [assocSet, lookupKV, h, ih]

theorem lookupKV_assocSet_ne (kvs : List (String × J)) (k k' : String) (v : J)
    (h : k' ≠ k) : lookupKV (assocSet kvs k v) k' = lookupKV kvs k' := by
  induction kvs with
  | nil =>
    simp only [assocSet, lookupKV]
    rw [if_neg (fun h' => h h'.symm)]
  | cons p t ih =>
    obtain ⟨k0, v0⟩ := p
    by_cases h0 : k0 = k
    · subst h0
      simp only [assocSet, if_pos rfl, lookupKV]
      rw [if_neg (fun h' => h h'.symm), if_neg (fun h' => h h'.symm)]
    · simp only [assocSet, if_neg h0, lookupKV]
      by_cases h1 : k0 = k'
      · rw [if_pos h1, if_pos h1]
      · rw [if_neg h1, if_neg h1, ih]

theorem assocSet_self (kvs : List (String × J)) (k : String) (v : J)
    (h : lookupKV kvs k = some v) : assocSet kvs k v = kvs := by
  induction kvs with
  | nil => simp [lookupKV] at h
  | cons p t ih =>
    obtain ⟨k0, v0⟩ := p
    by_cases h0 : k0 = k
    · subst h0
      simp [lookupKV] at h
      simp [assocSet, h]
    · simp [lookupKV, h0] at h
      simp [assocSet, h0, ih h]

theorem mem_assocSet (kvs : List (String × J)) (k : String) (v : J) (p : String × J)
    (h : p ∈ assocSet kvs k v) : p ∈ kvs ∨ p = (k, v) := by
  induction kvs with
  | nil => simp [assocSet] at h; simp [h]
  | cons q t ih =>
    obtain ⟨k0, v0⟩ := q
    by_cases h0 : k0 = k
    · subst h0
      simp [assocSet] at h
      rcases h with h | h
      · right; exact h
      · left; exact List.mem_cons_of_mem _ h
    · simp [assocSet, h0] at h
      rcases h with h | h
      · left; simp [h]
      · rcases ih h with h' | h'
        · left; exact List.mem_cons_of_mem _ h'
        · right; exact h'

theorem dictGet_dictSet_self (kvs : List (String × J)) (k : String) (v : J) :
    dictGet (dictSet (.obj kvs) k v) k = some v := by
  simp [dictGet, dictSet, lookupKV_assocSet_self]

theorem dictGet_dictSet_ne (kvs : List (String × J)) (k k' : String) (v : J)
    (h : k' ≠ k) : dictGet (dictSet (.obj kvs) k v) k' = dictGet (.obj kvs) k' := by
  simp [dictGet, dictSet, lookupKV_assocSet_ne _ _ _ _ h]

theorem isTypeName_obj (f : J) (tn : String) (h : isTypeName f tn = true) :
    ∃ kvs, f = .obj kvs := by
  cases f <;> simp [isTypeName, dictGet] at h ⊢

theorem dictSet_self (f : J) (k : String) (v : J) (h : dictGet f k = some v) :
    dictSet f k v = f := by
  cases f with
  | obj kvs =>
    simp only [dictGet] at h
    simp only [dictSet]
    rw [assocSet_self _ _ _ h]
  | s v' => simp [dictGet] at h
  | i v' => simp [dictGet] at h
  | b v' => simp [dictGet] at h
  | null => simp [dictGet] at h
  | arr xs => simp [dictGet] at h

theorem isTypeName_dictSet_value (f : J) (tn : String) (w : J) :
    isTypeName (dictSet f "value" w) tn = isTypeName f tn := by
  cases f with
  | obj kvs =>
    simp [isTypeName]
    rw [dictGet_dictSet_ne _ _ _ _ (by decide)]
  | s v => rfl
  | i v => rfl
  | b v => rfl
  | null => rfl
  | arr xs => rfl

theorem isTypeName_ne (f : J) (tn tn' : String) (h : isTypeName f tn = true)
    (hne : tn' ≠ tn) : isTypeName f tn' = false := by
  unfold isTypeName at h ⊢
  cases hg : dictGet f "typeName" with
  | none => rw [hg] at h
  | some v =>
    rw [hg] at h
    cases v with
    | s str =>
      have h2 : str = tn := of_decide_eq_true h
      subst h2
      exact decide_eq_false fun hh => hne hh.symm
    | i n => exact Bool.noConfusion h
    | b b0 => exact Bool.noConfusion h
    | null => exact Bool.noConfusion h
    | arr xs => exact Bool.noConfusion h
    | obj kvs => exact Bool.noConfusion h

theorem find_field_eq_none_iff (fields : List J) (tn : String) :
    find_field fields tn = none ↔ ∀ f ∈ fields, isTypeName f tn = false := by
  induction fields with
  | nil => simp [find_field]
  | cons f fs ih =>
    by_cases h : isTypeName f tn <;> simp [find_field, h, ih]

theorem truthyOpt_dictSet_entry (f : J) (h : ∃ kvs, f = .obj kvs) :
    truthyOpt (dictGet (dictSet f "value" (.arr [.obj []])) "value") = true := by
  obtain ⟨kvs, rfl⟩ := h
  rw [dictGet_dictSet_self]
  rfl

/-! ## Lemmas about compound-field updates -/

theorem lookupKV_mem (kvs : List (String × J)) (k : String) (v : J)
    (h : lookupKV kvs k = some v) : (k, v) ∈ kvs := by
  induction kvs with
  | nil => simp [lookupKV] at h
  | cons p t ih =>
    obtain ⟨k0, v0⟩ := p
    by_cases h0 : k0 = k
    · subst h0
      simp only [lookupKV, eq_self_iff_true, if_true, Option.some.injEq] at h
      subst h
      exact List.mem_cons_self _ _
    · simp only [lookupKV, if_neg h0] at h
      exact List.mem_cons_of_mem _ (ih h)

theorem update_compound_entry_allnone (values : List (String × Option String))
    (entry : J) (hv : ∀ p ∈ values, p.2 = none) :
    update_compound_entry entry values = some entry := by
  induction values with
  | nil => rfl
  | cons p rest ih =>
    obtain ⟨sub_name, nv⟩ := p
    have hp := hv (sub_name, nv) (List.mem_cons_self _ _)
    simp only at hp
    subst hp
    simp only [update_compound_entry]
    exact ih (fun q hq => hv q (List.mem_cons_of_mem _ hq))

theorem update_compound_entry_obj (values : List (String × Option String)) :
    ∀ kvs, (∀ p ∈ kvs, ∃ skvs, (p : String × J).2 = J.obj skvs) →
      ∃ kvs2, update_compound_entry (.obj kvs) values = some (.obj kvs2) ∧
        ∀ p ∈ kvs2, ∃ skvs, (p : String × J).2 = J.obj skvs := by
  induction values with
  | nil => intro kvs h; exact ⟨kvs, rfl, h⟩
  | cons p rest ih =>
    obtain ⟨sub_name, nv⟩ := p
    intro kvs h
    cases nv with
    | none =>
      simpa only [update_compound_entry] using ih kvs h
    | some v =>
      simp only [update_compound_entry]
      cases hl : lookupKV kvs sub_name with
      | none =>
        refine ih _ (fun q hq => ?_)
        rcases mem_assocSet _ _ _ _ hq with h1 | h1
        · exact h q h1
        · subst h1
          exact ⟨_, rfl⟩
      | some sub =>
        obtain ⟨skvs, hsub⟩ := h (sub_name, sub) (lookupKV_mem _ _ _ hl)
        simp only at hsub
        subst hsub
        refine ih _ (fun q hq => ?_)
        rcases mem_assocSet _ _ _ _ hq with h1 | h1
        · exact h q h1
        · subst h1
          exact ⟨_, rfl⟩

theorem applyCompoundGo_absent (tn : String) (values : List (String × Option String)) :
    ∀ fields : List J, (∀ f ∈ fields, isTypeName f tn = false) →
      ∃ e, update_compound_entry (.obj []) values = some e ∧
        applyCompoundGo fields tn values =
          some (fields ++ [dictSet (freshCompound tn) "value" (.arr [e])]) := by
  obtain ⟨kvs2, hu2, _⟩ := update_compound_entry_obj values [] (by simp)
  intro fields hf
  induction fields with
  | nil =>
    exact ⟨.obj kvs2, hu2, by simp [applyCompoundGo, hu2]⟩
  | cons f fs ih =>
    have hhead : isTypeName f tn = false := hf f (List.mem_cons_self _ _)
    obtain ⟨e, he, happ⟩ := ih (fun g hg => hf g (List.mem_cons_of_mem _ hg))
    refine ⟨e, he, ?_⟩
    simp only [applyCompoundGo, hhead, Bool.false_eq_true, if_false, happ]
    rfl

theorem truthy_s_ne (s : String) (ht : truthy (.s s) = true) : s ≠ "" := by
  simpa [truthy] using ht

theorem applyCompoundGo_cons_pos (f : J) (fs : List J) (tn : String)
    (values : List (String × Option String)) (hm : isTypeName f tn = true) :
    ∀ out, applyCompoundGo (f :: fs) tn values = some out →
      (∃ e, truthyOpt (dictGet f "value") = false ∧
        update_compound_entry (.obj []) values = some e ∧
        out = dictSet (dictSet f "value" (.arr [.obj []])) "value" (.arr [e]) :: fs) ∨
      (∃ e0 t0 e2, dictGet f "value" = some (.arr (e0 :: t0)) ∧
        update_compound_entry e0 values = some e2 ∧
        out = dictSet f "value" (.arr (e2 :: t0)) :: fs) ∨
      (∃ s, dictGet f "value" = some (.s s) ∧ s ≠ "" ∧ out = f :: fs) := by
  intro out h
  obtain ⟨kvs, rfl⟩ := isTypeName_obj f tn hm
  simp only [applyCompoundGo, hm, if_true] at h
  by_cases ht : truthyOpt (dictGet (J.obj kvs) "value")
  · rw [if_pos ht] at h
    cases hv : dictGet (J.obj kvs) "value" with
    | none => rw [hv] at ht; exact absurd ht (by simp [truthyOpt])
    | some v =>
      rw [hv] at h ht
      cases v with
      | arr xs =>
        cases xs with
        | nil => exact absurd ht (by simp [truthyOpt, truthy])
        | cons e0 t0 =>
          have h2 : (update_compound_entry e0 values).map
              (fun e2 => dictSet (J.obj kvs) "value" (J.arr (e2 :: t0)) :: fs) = some out := h
          rw [Option.map_eq_some'] at h2
          obtain ⟨e2, hu, hout⟩ := h2
          exact Or.inr (Or.inl ⟨e0, t0, e2, rfl, hu, hout.symm⟩)
      | s str =>
        have hne : str ≠ "" := truthy_s_ne str (by simpa [truthyOpt] using ht)
        obtain ⟨sd⟩ := str
        cases sd with
        | nil => exact absurd rfl hne
        | cons c cs =>
          have h2 : (update_compound_entry (.s (String.mk [c])) values).map
              (fun _ => J.obj kvs :: fs) = some out := h
          rw [Option.map_eq_some'] at h2
          obtain ⟨e2, hu, hout⟩ := h2
          exact Or.inr (Or.inr ⟨String.mk (c :: cs), rfl, hne, hout.symm⟩)
      | i n =>
        have h2 : (none : Option (List J)) = some out := h
        exact Option.noConfusion h2
      | b b0 =>
        have h2 : (none : Option (List J)) = some out := h
        exact Option.noConfusion h2
      | null => exact absurd ht (by simp [truthyOpt, truthy])
      | obj kvs2 =>
        have h2 : (none : Option (List J)) = some out := h
        exact Option.noConfusion h2
  · rw [if_neg ht] at h
    rw [dictGet_dictSet_self] at h
    have h2 : (update_compound_entry (.obj []) values).map
        (fun e => dictSet (dictSet (J.obj kvs) "value" (.arr [.obj []])) "value"
          (.arr [e]) :: fs) = some out := h
    rw [Option.map_eq_some'] at h2
    obtain ⟨e, hu, hout⟩ := h2
    exact Or.inl ⟨e, by simpa using ht, hu, hout.symm⟩

theorem applyCompoundGo_cons_neg (f : J) (fs : List J) (tn : String)
    (values : List (String × Option String)) (hm : isTypeName f tn = false) :
    ∀ out, applyCompoundGo (f :: fs) tn values = some out →
      ∃ out', applyCompoundGo fs tn values = some out' ∧ out = f :: out' := by
  intro out h
  simp only [applyCompoundGo, hm, Bool.false_eq_true, if_false] at h
  cases hrec : applyCompoundGo fs tn values with
  | none => rw [hrec] at h; simp at h
  | some out' =>
    rw [hrec] at h
    simp only [Option.map_some', Option.some.injEq] at h
    exact ⟨out', rfl, h.symm⟩

/-- Frame property: a compound override for `tn` does not change the
first field found for any other `typeName`. -/
theorem applyCompoundGo_find_frame (tn tn' : String)
    (values : List (String × Option String)) (hne : tn' ≠ tn) :
    ∀ (fields : List J) (out : List J), applyCompoundGo fields tn values = some out →
      find_field out tn' = find_field fields tn' := by
  intro fields
  induction fields with
  | nil =>
    intro out h
    simp only [applyCompoundGo] at h
    cases hu : update_compound_entry (.obj []) values with
    | none => rw [hu] at h; simp at h
    | some e =>
      rw [hu] at h
      simp only [Option.map_some', Option.some.injEq] at h
      subst h
      have htn : isTypeName (dictSet (freshCompound tn) "value" (.arr [e])) tn' = false := by
        rw [isTypeName_dictSet_value]
        exact isTypeName_ne (freshCompound tn) tn tn'
          (by simp [isTypeName, freshCompound, dictGet, lookupKV]) hne
      simp [find_field, htn]
  | cons f fs ih =>
    intro out h
    by_cases hm : isTypeName f tn
    · rcases applyCompoundGo_cons_pos f fs tn values hm out h with
        ⟨e, _, _, rfl⟩ | ⟨e0, t0, e2, _, _, rfl⟩ | ⟨s, _, _, rfl⟩
      · have hf' : isTypeName f tn' = false := isTypeName_ne f tn tn' hm hne
        simp only [find_field, isTypeName_dictSet_value, hf', Bool.false_eq_true, if_false]
      · have hf' : isTypeName f tn' = false := isTypeName_ne f tn tn' hm hne
        simp only [find_field, isTypeName_dictSet_value, hf', Bool.false_eq_true, if_false]
      · rfl
    · obtain ⟨out', hrec, rfl⟩ := applyCompoundGo_cons_neg f fs tn values
        (by simpa using hm) out h
      simp only [find_field, ih out' hrec]

/-- What a compound override does to its own field: creates it with one
entry when absent; self-heals a falsy value to one entry and updates it;
updates the first entry of a nonempty list value, preserving the tail;
leaves the field untouched when its value is a nonempty string. -/
theorem applyCompoundGo_find_self (tn : String)
    (values : List (String × Option String)) :
    ∀ (fields : List J) (out : List J), applyCompoundGo fields tn values = some out →
      (find_field fields tn = none ∧
        ∃ e, update_compound_entry (.obj []) values = some e ∧
          find_field out tn = some (dictSet (freshCompound tn) "value" (.arr [e]))) ∨
      (∃ f, find_field fields tn = some f ∧
        ((truthyOpt (dictGet f "value") = false ∧
          ∃ e, update_compound_entry (.obj []) values = some e ∧
            find_field out tn =
              some (dictSet (dictSet f "value" (.arr [.obj []])) "value" (.arr [e]))) ∨
        (∃ e0 t0 e2, dictGet f "value" = some (.arr (e0 :: t0)) ∧
          update_compound_entry e0 values = some e2 ∧
          find_field out tn = some (dictSet f "value" (.arr (e2 :: t0)))) ∨
        (∃ s, dictGet f "value" = some (.s s) ∧ s ≠ "" ∧ find_field out tn = some f))) := by
  intro fields
  induction fields with
  | nil =>
    intro out h
    simp only [applyCompoundGo] at h
    cases hu : update_compound_entry (.obj []) values with
    | none => rw [hu] at h; simp at h
    | some e =>
      rw [hu] at h
      simp only [Option.map_some', Option.some.injEq] at h
      subst h
      refine Or.inl ⟨rfl, e, rfl, ?_⟩
      have htn : isTypeName (dictSet (freshCompound tn) "value" (.arr [e])) tn = true := by
        rw [isTypeName_dictSet_value]
        simp [isTypeName, freshCompound, dictGet, lookupKV]
      simp [find_field, htn]
  | cons f fs ih =>
    intro out h
    by_cases hm : isTypeName f tn
    · have hfind : find_field (f :: fs) tn = some f := by simp [find_field, hm]
      rcases applyCompoundGo_cons_pos f fs tn values hm out h with
        ⟨e, hfalsy, hu, rfl⟩ | ⟨e0, t0, e2, hv, hu, rfl⟩ | ⟨s, hv, hs, rfl⟩
      · refine Or.inr ⟨f, hfind, Or.inl ⟨hfalsy, e, hu, ?_⟩⟩
        have htn : isTypeName (dictSet (dictSet f "value" (.arr [.obj []])) "value"
            (.arr [e])) tn = true := by
          rw [isTypeName_dictSet_value, isTypeName_dictSet_value]
          exact hm
        simp [find_field, htn]
      · refine Or.inr ⟨f, hfind, Or.inr (Or.inl ⟨e0, t0, e2, hv, hu, ?_⟩)⟩
        have htn : isTypeName (dictSet f "value" (.arr (e2 :: t0))) tn = true := by
          rw [isTypeName_dictSet_value]; exact hm
        simp [find_field, htn]
      · exact Or.inr ⟨f, hfind, Or.inr (Or.inr ⟨s, hv, hs, by simp [find_field, hm]⟩)⟩
    · obtain ⟨out', hrec, rfl⟩ := applyCompoundGo_cons_neg f fs tn values
        (by simpa using hm) out h
      have hmf : isTypeName f tn = false := by simpa using hm
      rcases ih out' hrec with ⟨hnone, e, hu, hfound⟩ | ⟨g, hg, hrest⟩
      · exact Or.inl ⟨by simp [find_field, hmf, hnone],
          e, hu, by simp [find_field, hmf, hfound]⟩
      · exact Or.inr ⟨g, by simp [find_field, hmf, hg],
          by simpa [find_field, hmf] using hrest⟩

/-! ## Test fixtures -/

/-- A primitive `title` citation field with the given string value, in
the shape the repository's `dataset.sample.json` template uses. -/
def titleF (v : String) : J :=
  .obj [("typeName", .s "title"), ("multiple", .b false),
    ("typeClass", .s "primitive"), ("value", .s v)]

/-- A metadata document wrapping the given citation fields list in the
`datasetVersion.metadataBlocks.citation.fields` path. -/
def mkMeta (fields : List J) : J :=
  .obj [("datasetVersion", .obj [("metadataBlocks", .obj [("citation",
    .obj [("fields", .arr fields)])])])]

theorem with_citation_fields_mkMeta (fields : List J) (upd : List J → Option (List J)) :
    with_citation_fields (mkMeta fields) upd = (upd fields).map mkMeta := by
  cases h : upd fields <;>
    simp [with_citation_fields, citationGo, mkMeta, lookupKV, assocSet, h]

theorem assocSet_assocSet (kvs : List (String × J)) (k : String) (v w : J) :
    assocSet (assocSet kvs k v) k w = assocSet kvs k w := by
  induction kvs with
  | nil => simp [assocSet]
  | cons p t ih =>
    obtain ⟨k0, v0⟩ := p
    by_cases h0 : k0 = k
    · subst h0
      simp [assocSet]
    · simp [assocSet, h0, ih]

theorem dictSet_dictSet (kvs : List (String × J)) (k : String) (v w : J) :
    dictSet (dictSet (.obj kvs) k v) k w = dictSet (.obj kvs) k w := by
  simp [dictSet, assocSet_assocSet]

/-! ## Title suffix lemmas (C6, C10) -/

theorem titleSuffix_existing_string (S : String) (pre : List J) (f : J) (post : List J)
    (v : String) (hpre : ∀ g ∈ pre, isTypeName g "title" = false)
    (hf : isTypeName f "title" = true) (hv : dictGet f "value" = some (.s v)) :
    apply_title_suffix_fields (pre ++ f :: post) S =
      pre ++ dictSet f "value" (.s (v ++ " " ++ S)) :: post := by
  induction pre with
  | nil =>
    simp only [List.nil_append, apply_title_suffix_fields, hf, if_true, hv]
  | cons g t ih =>
    have hg : isTypeName g "title" = false := hpre g (List.mem_cons_self _ _)
    simp only [List.cons_append, apply_title_suffix_fields, hg, Bool.false_eq_true, if_false,
      List.append_eq]
    rw [ih (fun g' hg' => hpre g' (List.mem_cons_of_mem _ hg'))]

theorem titleSuffix_absent (S : String) (fields : List J)
    (h : ∀ g ∈ fields, isTypeName g "title" = false) :
    apply_title_suffix_fields fields S = fields ++ [freshPrimitive "title" S] := by
  induction fields with
  | nil => rfl
  | cons g t ih =>
    have hg : isTypeName g "title" = false := h g (List.mem_cons_self _ _)
    simp only [apply_title_suffix_fields, hg, Bool.false_eq_true, if_false, List.cons_append,
      List.append_eq]
    rw [ih (fun g' hg' => h g' (List.mem_cons_of_mem _ hg'))]

theorem titleSuffix_nonstring (S : String) (pre : List J) (f : J) (post : List J)
    (hpre : ∀ g ∈ pre, isTypeName g "title" = false)
    (hf : isTypeName f "title" = true)
    (hv : ∀ v, dictGet f "value" ≠ some (.s v)) :
    apply_title_suffix_fields (pre ++ f :: post) S =
      pre ++ dictSet f "value" (.s S) :: post := by
  induction pre with
  | nil =>
    simp only [List.nil_append, apply_title_suffix_fields, hf, if_true]
  | cons g t ih =>
    have hg : isTypeName g "title" = false := hpre g (List.mem_cons_self _ _)
    simp only [List.cons_append, apply_title_suffix_fields, hg, Bool.false_eq_true, if_false,
      List.append_eq]
    rw [ih (fun g' hg' => hpre g' (List.mem_cons_of_mem _ hg'))]

/-- C6: for a non-empty suffix, `apply_title_suffix` appends the suffix
to an existing string-valued first `title` field separated by a single
space; creates a fresh primitive `title` field whose value is exactly the
suffix when no `title` field exists; concatenates again on re-application
with a further suffix rather than replacing; and `"My Dataset"` with
suffix `"v2"` yields `"My Dataset v2"`.  The last conjunct ties the
fields-level transform to the metadata-level function. -/
theorem applyTitleSuffix_append_create_concat (S : String) (hS : S ≠ "") :
    (∀ (pre : List J) (f : J) (post : List J) (v : String),
      (∀ g ∈ pre, isTypeName g "title" = false) → isTypeName f "title" = true →
      dictGet f "value" = some (.s v) →
      apply_title_suffix_fields (pre ++ f :: post) S =
        pre ++ dictSet f "value" (.s (v ++ " " ++ S)) :: post) ∧
    (∀ fields : List J, (∀ g ∈ fields, isTypeName g "title" = false) →
      apply_title_suffix_fields fields S = fields ++ [freshPrimitive "title" S]) ∧
    (apply_title_suffix_fields [titleF "My Dataset"] "v2" = [titleF "My Dataset v2"]) ∧
    (∀ (S2 : String) (pre : List J) (f : J) (post : List J) (v : String),
      (∀ g ∈ pre, isTypeName g "title" = false) → isTypeName f "title" = true →
      dictGet f "value" = some (.s v) →
      apply_title_suffix_fields (apply_title_suffix_fields (pre ++ f :: post) S) S2 =
        pre ++ dictSet f "value" (.s (v ++ " " ++ S ++ " " ++ S2)) :: post) ∧
    (∀ fields : List J,
      apply_title_suffix (mkMeta fields) S =
        some (mkMeta (apply_title_suffix_fields fields S))) := by
  refine ⟨titleSuffix_existing_string S, titleSuffix_absent S, by rfl, ?_, ?_⟩
  · intro S2 pre f post v hpre hf hv
    obtain ⟨kvs, rfl⟩ := isTypeName_obj f "title" hf
    rw [titleSuffix_existing_string S pre _ post v hpre hf hv]
    rw [titleSuffix_existing_string S2 pre _ post (v ++ " " ++ S) hpre
      (by rw [isTypeName_dictSet_value]; exact hf) (dictGet_dictSet_self kvs _ _)]
    rw [dictSet_dictSet]
  · intro fields
    rw [apply_title_suffix, if_neg hS, with_citation_fields_mkMeta]
    rfl

theorem applyTitleSuffix_append_create_concat_witness :
    apply_title_suffix_fields [titleF "My Dataset"] "v2" =
      [dictSet (titleF "My Dataset") "value" (.s ("My Dataset" ++ " " ++ "v2"))] :=
  (applyTitleSuffix_append_create_concat "v2" (by decide)).1
    [] (titleF "My Dataset") [] "My Dataset"
    (fun g hg => absurd hg (List.not_mem_nil g)) rfl rfl

/-- C10: when the first `title` field exists but its value is not a
string (a list, a number, a missing value, ...), `apply_title_suffix`
with a non-empty suffix replaces the field's value with the suffix alone
(the `set_simple_field` fallback overwrites instead of appending). -/
theorem applyTitleSuffix_nonstring_replaces (S : String) (_hS : S ≠ "") :
    ∀ (pre : List J) (f : J) (post : List J),
      (∀ g ∈ pre, isTypeName g "title" = false) → isTypeName f "title" = true →
      (∀ v, dictGet f "value" ≠ some (.s v)) →
      apply_title_suffix_fields (pre ++ f :: post) S =
        pre ++ dictSet f "value" (.s S) :: post :=
  fun pre f post h1 h2 h3 => titleSuffix_nonstring S pre f post h1 h2 h3

/-- A `title` field whose value is a list rather than a string. -/
def titleListValued : J :=
  .obj [("typeName", .s "title"), ("multiple", .b false),
    ("typeClass", .s "primitive"), ("value", .arr [.s "x"])]

theorem applyTitleSuffix_nonstring_replaces_witness :
    apply_title_suffix_fields [titleListValued] "v2" =
      [dictSet titleListValued "value" (.s "v2")] :=
  applyTitleSuffix_nonstring_replaces "v2" (by decide) [] titleListValued []
    (fun g hg => absurd hg (List.not_mem_nil g)) rfl
    (fun v h => by simp [titleListValued, dictGet, lookupKV] at h)

/-! ## All-null override frame machinery (C7) -/

/-- The effect of one all-null compound override on the fields list:
every existing position is unchanged except that a falsy-valued field of
this `typeName` gets a fresh single-entry container, and at most one
fresh compound field is appended when the `typeName` was absent. -/
def FrameStep (fields out : List J) (tn : String) : Prop :=
  fields.length ≤ out.length ∧
  (∀ i, i < fields.length →
    out.get? i = fields.get? i ∨
    ∃ f, fields.get? i = some f ∧ isTypeName f tn = true ∧
      truthyOpt (dictGet f "value") = false ∧
      out.get? i = some (dictSet f "value" (.arr [.obj []]))) ∧
  (∀ i, fields.length ≤ i → i < out.length →
    out.get? i = some (freshCompound tn) ∧ find_field fields tn = none)

theorem FrameStep_refl (fields : List J) (tn : String) : FrameStep fields fields tn := by
  refine ⟨le_refl _, fun i _ => Or.inl rfl, fun i h1 h2 => absurd h2 (by omega)⟩

theorem FrameStep_cons (f : J) (fs out' : List J) (tn : String)
    (hm : isTypeName f tn = false) (h : FrameStep fs out' tn) :
    FrameStep (f :: fs) (f :: out') tn := by
  obtain ⟨hlen, hpt, happ⟩ := h
  refine ⟨by simpa using hlen, ?_, ?_⟩
  · intro i hi
    cases i with
    | zero => exact Or.inl rfl
    | succ j =>
      rcases hpt j (by simpa using hi) with h1 | ⟨g, hg1, hg2, hg3, hg4⟩
      · exact Or.inl (by simpa using h1)
      · exact Or.inr ⟨g, by simpa using hg1, hg2, hg3, by simpa using hg4⟩
  · intro i h1 h2
    cases i with
    | zero => simp at h1
    | succ j =>
      obtain ⟨ha, hb⟩ := happ j (by simpa using h1) (by simpa using h2)
      exact ⟨by simpa using ha, by simp [find_field, hm, hb]⟩

theorem applyCompoundGo_allnone_frame (tn : String)
    (values : List (String × Option String))
    (hvals : ∀ p ∈ values, (p : String × Option String).2 = none) :
    ∀ fields out, applyCompoundGo fields tn values = some out →
      FrameStep fields out tn := by
  intro fields
  induction fields with
  | nil =>
    intro out h
    simp only [applyCompoundGo] at h
    rw [update_compound_entry_allnone values _ hvals] at h
    simp only [Option.map_some', Option.some.injEq] at h
    subst h
    have hfresh : dictSet (freshCompound tn) "value" (.arr [.obj []]) = freshCompound tn :=
      dictSet_self _ _ _ rfl
    rw [hfresh]
    refine ⟨by simp, fun i hi => absurd hi (by simp), fun i h1 h2 => ?_⟩
    have : i = 0 := by simp at h2; omega
    subst this
    exact ⟨rfl, rfl⟩
  | cons f fs ih =>
    intro out h
    by_cases hm : isTypeName f tn
    · obtain ⟨kvs, hfk⟩ := isTypeName_obj f tn hm
      rcases applyCompoundGo_cons_pos f fs tn values hm out h with
        ⟨e, hfalsy, hu, rfl⟩ | ⟨e0, t0, e2, hv, hu, rfl⟩ | ⟨s, hv, hs, rfl⟩
      · rw [update_compound_entry_allnone values _ hvals] at hu
        injection hu with hu
        subst hu
        subst hfk
        rw [dictSet_dictSet]
        refine ⟨le_refl _, ?_, fun i h1 h2 => absurd h2 (by simp at h1 ⊢; omega)⟩
        intro i hi
        cases i with
        | zero => exact Or.inr ⟨_, rfl, hm, hfalsy, rfl⟩
        | succ j => exact Or.inl rfl
      · rw [update_compound_entry_allnone values _ hvals] at hu
        injection hu with hu
        subst hu
        rw [dictSet_self f "value" _ hv]
        exact FrameStep_refl _ _
      · exact FrameStep_refl _ _
    · obtain ⟨out', hrec, rfl⟩ := applyCompoundGo_cons_neg f fs tn values
        (by simpa using hm) out h
      exact FrameStep_cons f fs out' tn (by simpa using hm) (ih out' hrec)

/-- The combined effect of a sequence of all-null compound overrides. -/
def FrameMulti (fields out : List J) (tns : List String) : Prop :=
  fields.length ≤ out.length ∧
  (∀ i, i < fields.length →
    out.get? i = fields.get? i ∨
    ∃ f tn, tn ∈ tns ∧ fields.get? i = some f ∧ isTypeName f tn = true ∧
      truthyOpt (dictGet f "value") = false ∧
      out.get? i = some (dictSet f "value" (.arr [.obj []]))) ∧
  (∀ i, fields.length ≤ i → i < out.length →
    ∃ tn, tn ∈ tns ∧ out.get? i = some (freshCompound tn) ∧ find_field fields tn = none)

theorem FrameMulti_refl (fields : List J) (tns : List String) :
    FrameMulti fields fields tns :=
  ⟨le_refl _, fun i _ => Or.inl rfl, fun i h1 h2 => absurd h2 (by omega)⟩

theorem truthyOpt_patched (f : J) (kvs : List (String × J)) (hf : f = J.obj kvs) :
    truthyOpt (dictGet (dictSet f "value" (.arr [.obj []])) "value") = true := by
  subst hf
  rw [dictGet_dictSet_self]
  rfl

theorem truthyOpt_freshCompound (tn : String) :
    truthyOpt (dictGet (freshCompound tn) "value") = true := rfl

theorem isTypeName_freshCompound_self (tn : String) :
    isTypeName (freshCompound tn) tn = true := by
  simp [isTypeName, freshCompound, dictGet, lookupKV]

theorem find_field_none_of_multi (fields m : List J) (tns : List String)
    (hM : FrameMulti fields m tns) (tn : String) (hnone : find_field m tn = none) :
    find_field fields tn = none := by
  obtain ⟨hlen, hpt, _⟩ := hM
  rw [find_field_eq_none_iff] at hnone ⊢
  intro f hf
  obtain ⟨j, hj⟩ := List.get?_of_mem hf
  have hjlt : j < fields.length := by
    by_contra hge
    rw [List.get?_eq_none.mpr (by omega)] at hj
    exact Option.noConfusion hj
  rcases hpt j hjlt with h1 | ⟨g, tn0, htn0, hget, hty, hfalsy, hmget⟩
  · exact hnone f (List.get?_mem (h1.trans hj))
  · rw [hj] at hget
    injection hget with hgf
    subst hgf
    have := hnone _ (List.get?_mem hmget)
    rwa [isTypeName_dictSet_value] at this

theorem FrameMulti_step (fields m out : List J) (tns : List String) (tn : String)
    (hM : FrameMulti fields m tns) (hS : FrameStep m out tn) :
    FrameMulti fields out (tn :: tns) := by
  obtain ⟨hlen1, hpt1, happ1⟩ := hM
  obtain ⟨hlen2, hpt2, happ2⟩ := hS
  refine ⟨le_trans hlen1 hlen2, ?_, ?_⟩
  · intro i hi
    rcases hpt2 i (by omega) with h2 | ⟨g, hg1, hg2, hg3, hg4⟩
    · rcases hpt1 i hi with h1 | ⟨f, tn0, htn0, hf1, hf2, hf3, hf4⟩
      · exact Or.inl (h2.trans h1)
      · exact Or.inr ⟨f, tn0, List.mem_cons_of_mem _ htn0, hf1, hf2, hf3, h2.trans hf4⟩
    · rcases hpt1 i hi with h1 | ⟨f, tn0, htn0, hf1, hf2, hf3, hf4⟩
      · rw [h1] at hg1
        exact Or.inr ⟨g, tn, List.mem_cons_self _ _, hg1, hg2, hg3, hg4⟩
      · rw [hf4] at hg1
        injection hg1 with hg1
        obtain ⟨kvs0, hk0⟩ := isTypeName_obj f tn0 hf2
        rw [← hg1] at hg3
        rw [truthyOpt_patched f kvs0 hk0] at hg3
        exact Bool.noConfusion hg3
  · intro i h1 h2
    by_cases him : i < m.length
    · obtain ⟨tn0, htn0, ha, hb⟩ := happ1 i h1 him
      rcases hpt2 i him with h2' | ⟨g, hg1, hg2, hg3, hg4⟩
      · exact ⟨tn0, List.mem_cons_of_mem _ htn0, h2'.trans ha, hb⟩
      · rw [ha] at hg1
        injection hg1 with hg1
        rw [← hg1, truthyOpt_freshCompound] at hg3
        exact Bool.noConfusion hg3
    · obtain ⟨ha, hb⟩ := happ2 i (by omega) h2
      exact ⟨tn, List.mem_cons_self _ _, ha,
        find_field_none_of_multi fields m tns ⟨hlen1, hpt1, happ1⟩ tn hb⟩

/-- All override values of the argparse namespace are null. -/
def argsAllNull : Args := ⟨none, none, none, none, none, none, none, none, none⟩

/-- C7: with an all-null override set, `apply_metadata_overrides` leaves
every existing citation field (values and sub-fields) byte-for-byte
unchanged, except that a managed compound field whose `value` was falsy
gets a fresh single-empty-entry container; the only other modification is
the appending of fresh managed compound fields (typeName and shape
populated, no value set) for managed `typeName`s that were entirely
absent. -/
theorem applyOverrides_allnull_frame (fields : List J) (a : Args)
    (hnull : a.citation_title = none ∧ a.author_name = none ∧
      a.author_affiliation = none ∧ a.author_identifier = none ∧
      a.author_identifier_scheme = none ∧ a.contact_name = none ∧
      a.contact_email = none ∧ a.dataset_description = none)
    (out : List J) (hout : apply_metadata_overrides_fields fields a = some out) :
    fields.length ≤ out.length ∧
    (∀ i, i < fields.length →
      out.get? i = fields.get? i ∨
      ∃ f tn, (tn = "author" ∨ tn = "datasetContact" ∨ tn = "dsDescription") ∧
        fields.get? i = some f ∧ isTypeName f tn = true ∧
        truthyOpt (dictGet f "value") = false ∧
        out.get? i = some (dictSet f "value" (.arr [.obj []]))) ∧
    (∀ i, fields.length ≤ i → i < out.length →
      ∃ tn, (tn = "author" ∨ tn = "datasetContact" ∨ tn = "dsDescription") ∧
        out.get? i = some (freshCompound tn) ∧ find_field fields tn = none) := by
  obtain ⟨h1, h2, h3, h4, h5, h6, h7, h8⟩ := hnull
  simp only [apply_metadata_overrides_fields, h1, strTruthy, Bool.false_eq_true,
    if_false] at hout
  cases ha : applyCompoundGo fields "author" (authorValues a) with
  | none => rw [apply_compound_field, ha] at hout; exact absurd hout (by simp)
  | some out1 =>
    rw [apply_compound_field, ha, Option.some_bind] at hout
    cases hc : applyCompoundGo out1 "datasetContact" (contactValues a) with
    | none => rw [apply_compound_field, hc] at hout; exact absurd hout (by simp)
    | some out2 =>
      rw [apply_compound_field, hc, Option.some_bind, apply_compound_field] at hout
      have hFa := applyCompoundGo_allnone_frame "author" (authorValues a)
        (by simp [authorValues, h2, h3, h4, h5]) fields out1 ha
      have hFc := applyCompoundGo_allnone_frame "datasetContact" (contactValues a)
        (by simp [contactValues, h6, h7]) out1 out2 hc
      have hFd := applyCompoundGo_allnone_frame "dsDescription" (descriptionValues a)
        (by simp [descriptionValues, h8]) out2 out hout
      have hM := FrameMulti_step fields out2 out _ "dsDescription"
        (FrameMulti_step fields out1 out2 _ "datasetContact"
          (FrameMulti_step fields fields out1 ["author"] "author"
            (FrameMulti_refl fields ["author"]) hFa) hFc) hFd
      obtain ⟨hlen, hpt, happ⟩ := hM
      refine ⟨hlen, ?_, ?_⟩
      · intro i hi
        rcases hpt i hi with h | ⟨f, tn, htn, ha1, ha2, ha3, ha4⟩
        · exact Or.inl h
        · refine Or.inr ⟨f, tn, ?_, ha1, ha2, ha3, ha4⟩
          have := htn
          simp only [List.mem_cons, List.mem_singleton, List.not_mem_nil, or_false] at this
          tauto
      · intro i hi1 hi2
        obtain ⟨tn, htn, ha1, ha2⟩ := happ i hi1 hi2
        refine ⟨tn, ?_, ha1, ha2⟩
        have := htn
        simp only [List.mem_cons, List.mem_singleton, List.not_mem_nil, or_false] at this
        tauto

/-- The all-null override run on a one-field template, used as a witness. -/
theorem applyOverrides_allnull_frame_witness :
    ([titleF "T"] : List J).length ≤
      ([titleF "T", freshCompound "author", freshCompound "datasetContact",
        freshCompound "dsDescription"] : List J).length :=
  (applyOverrides_allnull_frame [titleF "T"] argsAllNull
    ⟨rfl, rfl, rfl, rfl, rfl, rfl, rfl, rfl⟩
    [titleF "T", freshCompound "author", freshCompound "datasetContact",
      freshCompound "dsDescription"] (by rfl)).1

/-! ## First-entry characterization (C8) -/

theorem find_field_isTypeName (fields : List J) (tn : String) (f : J)
    (h : find_field fields tn = some f) : isTypeName f tn = true := by
  induction fields with
  | nil => simp [find_field] at h
  | cons g fs ih =>
    by_cases hm : isTypeName g tn
    · simp only [find_field, hm, if_true, Option.some.injEq] at h
      subst h
      exact hm
    · simp only [find_field, hm, Bool.false_eq_true, if_false] at h
      exact ih h

theorem setSimpleGo_find_frame (tn tn' v : String) (hne : tn' ≠ tn) :
    ∀ fields : List J, find_field (setSimpleGo fields tn v) tn' = find_field fields tn' := by
  intro fields
  induction fields with
  | nil =>
    have : isTypeName (freshPrimitive tn v) tn' = false :=
      isTypeName_ne _ tn tn' (by simp [isTypeName, freshPrimitive, dictGet, lookupKV]) hne
    simp [setSimpleGo, find_field, this]
  | cons f fs ih =>
    by_cases hm : isTypeName f tn
    · have hf' : isTypeName f tn' = false := isTypeName_ne f tn tn' hm hne
      simp only [setSimpleGo, hm, if_true, find_field, isTypeName_dictSet_value, hf',
        Bool.false_eq_true, if_false]
    · simp only [setSimpleGo, hm, Bool.false_eq_true, if_false, find_field, ih]

theorem set_simple_field_find_frame (fields : List J) (tn tn' : String)
    (val : Option String) (hne : tn' ≠ tn) :
    find_field (set_simple_field fields tn val) tn' = find_field fields tn' := by
  cases val with
  | none => rfl
  | some v => exact setSimpleGo_find_frame tn tn' v hne fields

/-- One compound-override step always leaves its field with a value of
the form `[entry, ...tail]`: the first entry is the (possibly updated)
target and the tail is exactly the original tail, unless the original
value was a nonempty string (excluded by `hstr`). -/
theorem single_step_first_entry (X Y : List J) (tn : String)
    (values : List (String × Option String))
    (h : applyCompoundGo X tn values = some Y)
    (hstr : ∀ s, ((find_field X tn).bind fun f => dictGet f "value") ≠ some (.s s)) :
    ∃ f e t, find_field Y tn = some f ∧ dictGet f "value" = some (.arr (e :: t)) ∧
      (find_field X tn = none → t = []) ∧
      (∀ f0, find_field X tn = some f0 → truthyOpt (dictGet f0 "value") = false → t = []) ∧
      (∀ f0 e0 t0, find_field X tn = some f0 →
        dictGet f0 "value" = some (.arr (e0 :: t0)) → t = t0) := by
  rcases applyCompoundGo_find_self tn values X Y h with
    ⟨hnone, e, hu, hfound⟩ | ⟨f0, hf0, hcase⟩
  · refine ⟨_, e, [], hfound, ?_, ?_, ?_, ?_⟩
    · simp [freshCompound, dictSet, dictGet, assocSet, lookupKV]
    · intro _
      rfl
    · intro f0 h' _
      rw [hnone] at h'
    · intro f0 e0 t0 h' _
      rw [hnone] at h'
      exact Option.noConfusion h'
  · have hty := find_field_isTypeName X tn f0 hf0
    obtain ⟨kvs0, rfl⟩ := isTypeName_obj f0 tn hty
    rcases hcase with ⟨hfalsy, e, hu, hfound⟩ | ⟨e0, t0, e2, hv, hu, hfound⟩ |
      ⟨s, hv, hs, hfound⟩
    · rw [dictSet_dictSet] at hfound
      refine ⟨_, e, [], hfound, dictGet_dictSet_self kvs0 _ _, ?_, ?_, ?_⟩
      · intro h'
        rw [hf0] at h'
      · intro f0' h' hfalsy'
        rfl
      · intro f0' e0 t0 h' hv'
        rw [hf0] at h'
        injection h' with h'
        subst h'
        rw [hv'] at hfalsy
        exact absurd hfalsy (by simp [truthyOpt, truthy])
    · refine ⟨_, e2, t0, hfound, dictGet_dictSet_self kvs0 _ _, ?_, ?_, ?_⟩
      · intro h'
        rw [hf0] at h'
        exact Option.noConfusion h'
      · intro f0' h' hfalsy'
        rw [hf0] at h'
        injection h' with h'
        subst h'
        rw [hv] at hfalsy'
        exact absurd hfalsy' (by simp [truthyOpt, truthy])
      · intro f0' e0' t0' h' hv'
        rw [hf0] at h'
        injection h' with h'
        subst h'
        rw [hv] at hv'
        injection hv' with hv'
        injection hv' with hv'
        injection hv' with h1 h2
    · exact absurd (by rw [hf0]; simpa using hv) (hstr s)

theorem pipeline_first_entry (F1 out : List J) (a : Args) (tn : String)
    (htn : tn = "author" ∨ tn = "datasetContact" ∨ tn = "dsDescription")
    (hout : (apply_compound_field F1 "author" (authorValues a)).bind
      (fun fields2 => (apply_compound_field fields2 "datasetContact" (contactValues a)).bind
        fun fields3 => apply_compound_field fields3 "dsDescription" (descriptionValues a)) =
      some out)
    (hstr : ∀ s, ((find_field F1 tn).bind fun f => dictGet f "value") ≠ some (.s s)) :
    ∃ f e t, find_field out tn = some f ∧ dictGet f "value" = some (.arr (e :: t)) ∧
      (find_field F1 tn = none → t = []) ∧
      (∀ f0, find_field F1 tn = some f0 → truthyOpt (dictGet f0 "value") = false → t = []) ∧
      (∀ f0 e0 t0, find_field F1 tn = some f0 →
        dictGet f0 "value" = some (.arr (e0 :: t0)) → t = t0) := by
  cases ha : applyCompoundGo F1 "author" (authorValues a) with
  | none => rw [apply_compound_field, ha] at hout; exact absurd hout (by simp)
  | some out1 =>
    rw [apply_compound_field, ha, Option.some_bind] at hout
    cases hc : applyCompoundGo out1 "datasetContact" (contactValues a) with
    | none => rw [apply_compound_field, hc] at hout; exact absurd hout (by simp)
    | some out2 =>
      rw [apply_compound_field, hc, Option.some_bind, apply_compound_field] at hout
      rcases htn with rfl | rfl | rfl
      · have hfrc := applyCompoundGo_find_frame "datasetContact" "author"
          (contactValues a) (by decide) out1 out2 hc
        have hfrd := applyCompoundGo_find_frame "dsDescription" "author"
          (descriptionValues a) (by decide) out2 out hout
        obtain ⟨f, e, t, hf, hv, h1, h2, h3⟩ :=
          single_step_first_entry F1 out1 "author" (authorValues a) ha hstr
        exact ⟨f, e, t, by rw [hfrd, hfrc]; exact hf, hv, h1, h2, h3⟩
      · have hfra := applyCompoundGo_find_frame "author" "datasetContact"
          (authorValues a) (by decide) F1 out1 ha
        have hfrd := applyCompoundGo_find_frame "dsDescription" "datasetContact"
          (descriptionValues a) (by decide) out2 out hout
        obtain ⟨f, e, t, hf, hv, h1, h2, h3⟩ :=
          single_step_first_entry out1 out2 "datasetContact" (contactValues a) hc
            (by rw [hfra]; exact hstr)
        rw [hfra] at h1 h2 h3
        exact ⟨f, e, t, by rw [hfrd]; exact hf, hv, h1, h2, h3⟩
      · have hfra := applyCompoundGo_find_frame "author" "dsDescription"
          (authorValues a) (by decide) F1 out1 ha
        have hfrc := applyCompoundGo_find_frame "datasetContact" "dsDescription"
          (contactValues a) (by decide) out1 out2 hc
        obtain ⟨f, e, t, hf, hv, h1, h2, h3⟩ :=
          single_step_first_entry out2 out "dsDescription" (descriptionValues a) hout
            (by rw [hfrc, hfra]; exact hstr)
        rw [hfrc, hfra] at h1 h2 h3
        exact ⟨f, e, t, hf, hv, h1, h2, h3⟩

/-- C8 (amended): after `apply_metadata_overrides`, each managed compound
field (author, datasetContact, dsDescription) holds a value of the form
`[entry, ...tail]` — at least one sub-entry, with all updates targeting
the first entry.  The field is created with exactly one entry when
absent; an existing empty/falsy value list is replaced by exactly one
fresh entry; but an existing multi-entry list keeps its extra entries
(tail preserved), so "exactly one sub-entry" holds only for
created/self-healed fields.  Templates whose managed field carries a
nonempty string value (on which the script either crashes or no-ops) are
excluded by hypothesis. -/
theorem applyOverrides_compound_first_entry (fields : List J) (a : Args) (out : List J)
    (hout : apply_metadata_overrides_fields fields a = some out)
    (tn : String) (htn : tn = "author" ∨ tn = "datasetContact" ∨ tn = "dsDescription")
    (hstr : ∀ s, ((find_field fields tn).bind fun f => dictGet f "value") ≠ some (.s s)) :
    ∃ f e t, find_field out tn = some f ∧ dictGet f "value" = some (.arr (e :: t)) ∧
      (find_field fields tn = none → t = []) ∧
      (∀ f0, find_field fields tn = some f0 →
        truthyOpt (dictGet f0 "value") = false → t = []) ∧
      (∀ f0 e0 t0, find_field fields tn = some f0 →
        dictGet f0 "value" = some (.arr (e0 :: t0)) → t = t0) := by
  have hnt : tn ≠ "title" := by rcases htn with rfl | rfl | rfl <;> decide
  by_cases hct : strTruthy a.citation_title
  · simp only [apply_metadata_overrides_fields, hct, if_true] at hout
    have hfr : find_field (set_simple_field fields "title" a.citation_title) tn =
        find_field fields tn := set_simple_field_find_frame fields "title" tn _ hnt
    obtain ⟨f, e, t, hf, hv, h1, h2, h3⟩ := pipeline_first_entry
      (set_simple_field fields "title" a.citation_title) out a tn htn hout
      (by rw [hfr]; exact hstr)
    rw [hfr] at h1 h2 h3
    exact ⟨f, e, t, hf, hv, h1, h2, h3⟩
  · simp only [apply_metadata_overrides_fields, hct, Bool.false_eq_true, if_false] at hout
    exact pipeline_first_entry fields out a tn htn hout hstr

/-- An `author` compound field carrying two sub-entries, as a template
may legally contain. -/
def authorTwoEntries : J :=
  .obj [("typeName", .s "author"), ("multiple", .b true),
    ("typeClass", .s "compound"), ("value", .arr [.obj [], .obj []])]

/-- The number of sub-entries of the first field with this `typeName`. -/
def managedEntryCount (fields : List J) (tn : String) : Option Nat :=
  (find_field fields tn).bind fun f =>
    match dictGet f "value" with
    | some (.arr es) => some es.length
    | _ => none

/-- Counterexample to C8 as stated: on a template whose `author` field
already holds two sub-entries, `apply_metadata_overrides` (here with
all-null overrides; any overrides behave the same) leaves both entries in
place, so the field holds two sub-entry maps, not exactly one. -/
theorem applyOverrides_two_entries_cex :
    (apply_metadata_overrides_fields [authorTwoEntries] argsAllNull).bind
        (fun fs => managedEntryCount fs "author") = some 2 ∧ (2 : Nat) ≠ 1 :=
  ⟨rfl, by decide⟩

theorem applyOverrides_compound_first_entry_witness :
    managedEntryCount [authorTwoEntries, freshCompound "datasetContact",
      freshCompound "dsDescription"] "author" = some 2 := by
  have _h := applyOverrides_compound_first_entry [authorTwoEntries] argsAllNull
    [authorTwoEntries, freshCompound "datasetContact", freshCompound "dsDescription"]
    (by rfl) "author" (Or.inl rfl)
    (by
      intro s hcon
      rw [show ((find_field [authorTwoEntries] "author").bind fun f =>
        dictGet f "value") = some (.arr [.obj [], .obj []]) from rfl] at hcon
      exact absurd hcon (by simp))
  rfl

/-! ## Title suffix fallback policy (C5) -/

theorem dictSet_titleF (v x : String) :
    dictSet (titleF v) "value" (.s x) = titleF x := rfl

theorem dictGet_titleF (v : String) : dictGet (titleF v) "value" = some (.s v) := rfl

theorem isTypeName_titleF (v : String) : isTypeName (titleF v) "title" = true := rfl

theorem titleValue_mkMeta (fields : List J) :
    titleValue (mkMeta fields) = (find_field fields "title").bind fun f =>
      dictGet f "value" := rfl

theorem compound_steps_on_title (T' : J) (a : Args) (hT : isTypeName T' "title" = true) :
    ∃ outF, ((apply_compound_field [T'] "author" (authorValues a)).bind
      (fun fields2 => (apply_compound_field fields2 "datasetContact" (contactValues a)).bind
        fun fields3 => apply_compound_field fields3 "dsDescription" (descriptionValues a))) =
        some outF ∧
      find_field outF "title" = some T' := by
  have hA : ∀ f ∈ [T'], isTypeName f "author" = false := by
    intro f hf
    rw [List.mem_singleton] at hf
    subst hf
    exact isTypeName_ne f "title" "author" hT (by decide)
  obtain ⟨e1, _, ha⟩ := applyCompoundGo_absent "author" (authorValues a) [T'] hA
  have ha' : applyCompoundGo [T'] "author" (authorValues a) =
      some [T', dictSet (freshCompound "author") "value" (.arr [e1])] := by
    simpa using ha
  have hC : ∀ f ∈ [T', dictSet (freshCompound "author") "value" (.arr [e1])],
      isTypeName f "datasetContact" = false := by
    intro f hf
    rcases List.mem_cons.mp hf with rfl | hf
    · exact isTypeName_ne f "title" "datasetContact" hT (by decide)
    · rw [List.mem_singleton] at hf
      subst hf
      rw [isTypeName_dictSet_value]
      exact isTypeName_ne _ "author" "datasetContact"
        (isTypeName_freshCompound_self _) (by decide)
  obtain ⟨e2, _, hc⟩ := applyCompoundGo_absent "datasetContact" (contactValues a) _ hC
  have hc' : applyCompoundGo [T', dictSet (freshCompound "author") "value" (.arr [e1])]
      "datasetContact" (contactValues a) =
      some [T', dictSet (freshCompound "author") "value" (.arr [e1]),
        dictSet (freshCompound "datasetContact") "value" (.arr [e2])] := by
    simpa using hc
  have hD : ∀ f ∈ [T', dictSet (freshCompound "author") "value" (.arr [e1]),
      dictSet (freshCompound "datasetContact") "value" (.arr [e2])],
      isTypeName f "dsDescription" = false := by
    intro f hf
    rcases List.mem_cons.mp hf with rfl | hf
    · exact isTypeName_ne f "title" "dsDescription" hT (by decide)
    rcases List.mem_cons.mp hf with rfl | hf
    · rw [isTypeName_dictSet_value]
      exact isTypeName_ne _ "author" "dsDescription"
        (isTypeName_freshCompound_self _) (by decide)
    · rw [List.mem_singleton] at hf
      subst hf
      rw [isTypeName_dictSet_value]
      exact isTypeName_ne _ "datasetContact" "dsDescription"
        (isTypeName_freshCompound_self _) (by decide)
  obtain ⟨e3, _, hd⟩ := applyCompoundGo_absent "dsDescription" (descriptionValues a) _ hD
  have hd' : applyCompoundGo [T', dictSet (freshCompound "author") "value" (.arr [e1]),
      dictSet (freshCompound "datasetContact") "value" (.arr [e2])]
      "dsDescription" (descriptionValues a) =
      some [T', dictSet (freshCompound "author") "value" (.arr [e1]),
        dictSet (freshCompound "datasetContact") "value" (.arr [e2]),
        dictSet (freshCompound "dsDescription") "value" (.arr [e3])] := by
    simpa using hd
  refine ⟨[T', dictSet (freshCompound "author") "value" (.arr [e1]),
    dictSet (freshCompound "datasetContact") "value" (.arr [e2]),
    dictSet (freshCompound "dsDescription") "value" (.arr [e3])], ?_, ?_⟩
  · rw [apply_compound_field, ha', Option.some_bind, apply_compound_field, hc',
      Option.some_bind, apply_compound_field, hd']
  · simp [find_field, hT]

/-- C5 (amended): `build_dataset` supplies the timestamp fallback suffix
only when the suffix argument is absent (`None`) — an explicit empty
suffix disables title suffixing entirely (no fallback).  Moreover the
suffixed title is subsequently overwritten by the `citation_title`
override whenever that override is non-empty, so the suffix survives into
the composed title only when `citation_title` is empty or absent. -/
theorem buildDataset_suffix_policy :
    (∀ s now_utc, chooseSuffix (some s) now_utc = s) ∧
    (∀ now_utc, chooseSuffix none now_utc = now_utc) ∧
    (∀ (template : J) (a : Args) (now_utc : String), a.title_suffix = some "" →
      build_dataset_metadata template a now_utc = apply_metadata_overrides template a) ∧
    (∀ (v now_utc : String) (a : Args), a.title_suffix = none → now_utc ≠ "" →
      strTruthy a.citation_title = false →
      (build_dataset_metadata (mkMeta [titleF v]) a now_utc).bind titleValue =
        some (.s (v ++ " " ++ now_utc))) ∧
    (∀ (v now_utc c : String) (a : Args), a.title_suffix = none → now_utc ≠ "" →
      a.citation_title = some c → c ≠ "" →
      (build_dataset_metadata (mkMeta [titleF v]) a now_utc).bind titleValue =
        some (.s c)) := by
  have hsuffixed : ∀ (v now_utc : String) (a : Args), a.title_suffix = none →
      now_utc ≠ "" →
      build_dataset_metadata (mkMeta [titleF v]) a now_utc =
        apply_metadata_overrides (mkMeta [titleF (v ++ " " ++ now_utc)]) a := by
    intro v now_utc a hts hnow
    have hsf : apply_title_suffix_fields [titleF v] now_utc =
        [titleF (v ++ " " ++ now_utc)] := by
      have h := titleSuffix_existing_string now_utc [] (titleF v) [] v
        (fun g hg => absurd hg (List.not_mem_nil g)) (isTypeName_titleF v)
        (dictGet_titleF v)
      simpa [dictSet_titleF] using h
    simp only [build_dataset_metadata, hts, chooseSuffix]
    rw [apply_title_suffix, if_neg hnow, with_citation_fields_mkMeta]
    simp only [hsf, Option.map_some', Option.some_bind]
  refine ⟨fun s now_utc => rfl, fun now_utc => rfl, ?_, ?_, ?_⟩
  · intro template a now_utc h
    simp only [build_dataset_metadata, h, chooseSuffix]
    rw [apply_title_suffix, if_pos rfl, Option.some_bind]
  · intro v now_utc a hts hnow hct
    rw [hsuffixed v now_utc a hts hnow]
    obtain ⟨outF, hpipe, hfind⟩ := compound_steps_on_title
      (titleF (v ++ " " ++ now_utc)) a (isTypeName_titleF _)
    have hfieldsrun : apply_metadata_overrides_fields [titleF (v ++ " " ++ now_utc)] a =
        some outF := by
      simp only [apply_metadata_overrides_fields, hct, Bool.false_eq_true, if_false]
      exact hpipe
    rw [apply_metadata_overrides, with_citation_fields_mkMeta, hfieldsrun]
    simp only [Option.map_some', Option.some_bind, titleValue_mkMeta, hfind,
      Option.some_bind]
    exact dictGet_titleF _
  · intro v now_utc c a hts hnow hcts hc
    rw [hsuffixed v now_utc a hts hnow]
    obtain ⟨outF, hpipe, hfind⟩ := compound_steps_on_title (titleF c) a (isTypeName_titleF _)
    have hct' : strTruthy (some c) = true := by simp [strTruthy, hc]
    have hset : setSimpleGo [titleF (v ++ " " ++ now_utc)] "title" c = [titleF c] := by
      simp only [setSimpleGo, isTypeName_titleF, if_true, dictSet_titleF]
    have hfieldsrun : apply_metadata_overrides_fields [titleF (v ++ " " ++ now_utc)] a =
        some outF := by
      simp only [apply_metadata_overrides_fields, hcts, hct', if_true, set_simple_field,
        hset]
      exact hpipe
    rw [apply_metadata_overrides, with_citation_fields_mkMeta, hfieldsrun]
    simp only [Option.map_some', Option.some_bind, titleValue_mkMeta, hfind,
      Option.some_bind]
    exact dictGet_titleF _

/-- Overrides with an explicit empty title suffix. -/
def argsEmptySuffix : Args :=
  ⟨some "Base", some "Ana", some "UFF", none, none, some "Bob", some "bob@example.org",
    some "workflow results", some ""⟩

/-- The same overrides with the title suffix absent. -/
def argsAbsentSuffix : Args :=
  ⟨some "Base", some "Ana", some "UFF", none, none, some "Bob", some "bob@example.org",
    some "workflow results", none⟩

/-- Counterexample to C5 as stated: with a present-but-empty suffix
argument, no fallback timestamp is supplied (the composed document is
clock-independent and its title is just the citation title); and even
with the suffix argument absent (fallback chosen), the composed title is
the citation title, with the timestamp clobbered by the title override. -/
theorem buildDataset_fallback_cex :
    (build_dataset_metadata (mkMeta [titleF "My Dataset"]) argsEmptySuffix
        "(2099-01-01 00:00 UTC)").bind titleValue = some (.s "Base") ∧
      build_dataset_metadata (mkMeta [titleF "My Dataset"]) argsEmptySuffix
          "(2099-01-01 00:00 UTC)" =
        build_dataset_metadata (mkMeta [titleF "My Dataset"]) argsEmptySuffix
          "(1999-12-31 23:59 UTC)" ∧
      (build_dataset_metadata (mkMeta [titleF "My Dataset"]) argsAbsentSuffix
          "(2099-01-01 00:00 UTC)").bind titleValue = some (.s "Base") :=
  ⟨rfl, rfl, rfl⟩

theorem buildDataset_suffix_policy_witness :
    (build_dataset_metadata (mkMeta [titleF "My Dataset"]) argsAbsentSuffix
        "(2099-01-01 00:00 UTC)").bind titleValue = some (.s "Base") :=
  (buildDataset_suffix_policy).2.2.2.2 "My Dataset" "(2099-01-01 00:00 UTC)" "Base"
    argsAbsentSuffix rfl (by decide) rfl (by decide)

/-! ## The `main` driver as a remote-call trace (C9; script.py lines 422-463) -/

/-- A remote repository-service call issued through the pyDataverse API. -/
inductive RemoteCall where
  | getDataverse (dvAlias : String)
  | createDataverse (parent : String)
  | createDataset (dvAlias : String)
  | uploadDatafile (pid : String) (path : String)

/-- The environment a run of `main` observes: the local filesystem
(data root, template file) and the remote service's responses. -/
structure MainEnv where
  dataRootExists : Bool
  files : List String
  template_exists : Bool
  template_parses : Bool
  template : J
  now_utc : String
  get_resp : HttpResp
  create_resp : HttpResp
  dataset_status : Nat
  dataset_pid : String
  upload_resp : String → Nat → HttpResp

/-- The configuration `main` runs with (after argparse). -/
structure MainArgs where
  dataverse_alias : Option String
  parent_dataverse : String
  overrides : Args
  skip_dataverse_creation : Bool
  concurrent_upload : Bool
  upload_retries : Int
  upload_retry_delay : ℚ

/-- Models `main()`: alias check, file discovery (raises when the data root is
missing), template resolution and parsing (raises when missing or
malformed), metadata composition, collection provisioning, dataset
creation, uploads.  Returns the remote calls issued, in order, and the
overall outcome.  `completion` is the completion order used in concurrent
mode. -/
def main_run (env : MainEnv) (margs : MainArgs) (completion : List Nat) :
    List RemoteCall × Except String Unit :=
  if strTruthy margs.dataverse_alias = false then
    ([], .error "alias do Dataverse ausente")
  else if env.dataRootExists = false then
    ([], .error "Diretório de dados não encontrado")
  else if env.template_exists = false then
    ([], .error "Template de dataset não encontrado")
  else if env.template_parses = false then
    ([], .error "template JSON inválido")
  else
    match build_dataset_metadata env.template margs.overrides env.now_utc with
    | none => ([], .error "erro ao compor os metadados")
    | some _ =>
      let dvAlias := margs.dataverse_alias.getD ""
      let ensureCalls : List RemoteCall :=
        if margs.skip_dataverse_creation then []
        else if env.get_resp.status_code = 200 then [.getDataverse dvAlias]
        else [.getDataverse dvAlias, .createDataverse margs.parent_dataverse]
      match ensure_dataverse_exists margs.skip_dataverse_creation env.get_resp
          env.create_resp with
      | .error e => (ensureCalls, .error ("Falha ao criar Dataverse, status " ++ toString e.1))
      | .ok _ =>
        let calls2 := ensureCalls ++ [.createDataset dvAlias]
        if env.dataset_status ≠ 201 then
          (calls2, .error "Falha ao criar dataset")
        else if env.files.isEmpty then
          (calls2, .ok ())
        else if margs.concurrent_upload = false then
          let run := upload_files_seq env.upload_resp (max 1 margs.upload_retries)
            (max 0 margs.upload_retry_delay) env.files
          (calls2 ++ run.trace.flatMap (fun p =>
              List.replicate p.2.attempts (.uploadDatafile env.dataset_pid p.1)),
            match run.error with
            | none => .ok ()
            | some _ => .error "Falha ao enviar arquivo")
        else
          let run := upload_files_conc env.upload_resp (max 1 margs.upload_retries)
            (max 0 margs.upload_retry_delay) env.files completion
          (calls2 ++ run.results.flatMap (fun p =>
              List.replicate p.2.attempts (.uploadDatafile env.dataset_pid p.1)),
            match run.raised with
            | none => .ok ()
            | some _ => .error "Falha ao enviar arquivos")

/-- C9: when the data root directory is missing, or the metadata template
file is missing or unparseable, `main` fails before issuing any remote
call: the call trace is empty (no getCollection / createCollection /
createDataset / uploadFile) and the run ends in a fatal error. -/
theorem main_aborts_before_remote (env : MainEnv) (margs : MainArgs)
    (completion : List Nat)
    (h : env.dataRootExists = false ∨ env.template_exists = false ∨
      env.template_parses = false) :
    (main_run env margs completion).1 = [] ∧
      ∃ e, (main_run env margs completion).2 = .error e := by
  unfold main_run
  by_cases h1 : strTruthy margs.dataverse_alias = false
  · rw [if_pos h1]
    exact ⟨rfl, _, rfl⟩
  · rw [if_neg h1]
    rcases h with h | h | h
    · rw [if_pos h]
      exact ⟨rfl, _, rfl⟩
    · by_cases h2 : env.dataRootExists = false
      · rw [if_pos h2]
        exact ⟨rfl, _, rfl⟩
      · rw [if_neg h2, if_pos h]
        exact ⟨rfl, _, rfl⟩
    · by_cases h2 : env.dataRootExists = false
      · rw [if_pos h2]
        exact ⟨rfl, _, rfl⟩
      · rw [if_neg h2]
        by_cases h3 : env.template_exists = false
        · rw [if_pos h3]
          exact ⟨rfl, _, rfl⟩
        · rw [if_neg h3, if_pos h]
          exact ⟨rfl, _, rfl⟩

/-- A concrete environment with a missing template file. -/
def envNoTemplate : MainEnv :=
  ⟨true, ["a.txt"], false, true, mkMeta [titleF "T"], "(2099-01-01 00:00 UTC)",
    ⟨404, ""⟩, ⟨201, ""⟩, 201, "doi:10.111/X", fun _ _ => ⟨201, "ok"⟩⟩

/-- A concrete configuration. -/
def margsW : MainArgs :=
  ⟨some "Dv14", "parent", argsAbsentSuffix, false, false, 3, 2⟩

theorem main_aborts_before_remote_witness :
    (main_run envNoTemplate margsW []).1 = [] ∧
      ∃ e, (main_run envNoTemplate margsW []).2 = .error e :=
  main_aborts_before_remote envNoTemplate margsW [] (Or.inr (Or.inl rfl))

end DataverseUploader
